import Mathlib

/-!
Shallow embedding of the sitemap-visualizer core (service worker
`part_001` and report page `report.js`) together with proofs of the
frozen claims about it.

Modelling conventions:
* A JS tree node (`TreeNode` / `EllipsisNode`) is one inductive `Node`
  carrying all fields that ever occur; fields a plain `TreeNode` does not
  set (`isEllipsis`, `hiddenChildren`, `parentPath`, `expandBatchSize`)
  default to `false` / `[]` / `""` / `0`, matching the absent (falsy /
  undefined) JS values.
* JS `null` / `undefined` string fields are `Option String`; the JS
  truthiness test `if (x)` on such a field is `truthy` below (`null`,
  `undefined` and `""` are falsy).
* Functions that mutate a node in place are embedded as pure functions
  returning the post-call value of the mutated argument (which is also
  the JS return value, a reference to the same object).
* `new URL(u).pathname` is kept abstract as a parameter
  `parse : String -> Option String` (`none` for an unparseable URL,
  mirroring the `try/catch` that drops such URLs).
-/

set_option maxHeartbeats 1000000

/-- One node of the URL tree, covering both plain tree nodes and the
synthetic ellipsis nodes of the display tree. -/
inductive Node : Type where
  | mk (name : String) (url : Option String) (path : String)
       (children : List Node) (screenshot : Option String)
       (isEllipsis : Bool) (hiddenChildren : List Node)
       (parentPath : String) (expandBatchSize : Nat) : Node

def Node.name : Node → String
  | .mk x _ _ _ _ _ _ _ _ => x

def Node.url : Node → Option String
  | .mk _ x _ _ _ _ _ _ _ => x

def Node.path : Node → String
  | .mk _ _ x _ _ _ _ _ _ => x

def Node.children : Node → List Node
  | .mk _ _ _ x _ _ _ _ _ => x

def Node.screenshot : Node → Option String
  | .mk _ _ _ _ x _ _ _ _ => x

def Node.isEllipsis : Node → Bool
  | .mk _ _ _ _ _ x _ _ _ => x

def Node.hiddenChildren : Node → List Node
  | .mk _ _ _ _ _ _ x _ _ => x

def Node.parentPath : Node → String
  | .mk _ _ _ _ _ _ _ x _ => x

def Node.expandBatchSize : Node → Nat
  | .mk _ _ _ _ _ _ _ _ x => x

/-- Build a plain (non-ellipsis) node, the shape produced by the tree
builder: the four ellipsis-only fields take their absent/falsy values. -/
def Node.plain (name : String) (url : Option String) (path : String)
    (children : List Node) (screenshot : Option String) : Node :=
  .mk name url path children screenshot false [] "" 0

def Node.withChildren : Node → List Node → Node
  | .mk a b c _ e f g h i, cs => .mk a b c cs e f g h i

def Node.withUrl : Node → Option String → Node
  | .mk a _ c d e f g h i, u => .mk a u c d e f g h i

def Node.withScreenshot : Node → Option String → Node
  | .mk a b c d _ f g h i, s => .mk a b c d s f g h i

/-- JS truthiness of a nullable string field: `null`/`undefined` and the
empty string are falsy. -/
def truthy : Option String → Bool
  | none => false
  | some s => s ≠ ""

/-- All nodes of a tree in preorder (the node itself, then the nodes of
each child subtree, left to right).  `hiddenChildren` of an ellipsis
node are *not* part of the displayed tree and are not listed. -/
def allNodes : Node → List Node
  | .mk n u p cs s e h pp b =>
    .mk n u p cs s e h pp b :: cs.attach.flatMap (fun c => allNodes c.1)
termination_by n => sizeOf n
decreasing_by
  have := List.sizeOf_lt_of_mem c.2
  simp at this ⊢
  omega

/-- The synthetic `"... +N more"` node pushed by `collapseTree` and
`performExpand`: name shows the hidden count, `path` is the owner's path
plus the fixed suffix `_more/`, `hiddenChildren` holds the removed
subtrees, `expandBatchSize` is fixed at 5. -/
def ellipsisNodeFor (parentPath : String) (hidden : List Node) : Node :=
  .mk ("... +" ++ toString hidden.length ++ " more") none
    (parentPath ++ "_more/") [] none true hidden parentPath 5

/-- Embedding of `collapseTree(node, maxChildren)` (report.js).
The JS function reassigns `node.children` in place and returns `node`;
this function is the resulting value (post-call value of the argument). -/
def collapseTree (node : Node) (maxChildren : Nat) : Node :=
  match node with
  | .mk n u p cs s e h pp b =>
    if cs.length = 0 then .mk n u p cs s e h pp b
    else
      let cs' := cs.attach.map (fun c => collapseTree c.1 maxChildren)
      if cs'.length > maxChildren then
        let visibleCount := maxChildren - 1
        let visibleChildren := cs'.take visibleCount
        let hiddenChildren := cs'.drop visibleCount
        .mk n u p (visibleChildren ++ [ellipsisNodeFor p hiddenChildren]) s e h pp b
      else .mk n u p cs' s e h pp b
termination_by sizeOf node
decreasing_by
  have := List.sizeOf_lt_of_mem c.2
  simp at this ⊢
  omega

/-! ## URL path segmentation

`path.split('/').filter(Boolean)` in JS returns the maximal nonempty
runs of non-`'/'` characters of `path`; `splitSegs` is that fused
split-and-filter, working over the character list. -/

def splitSegsAux : List Char → List Char → List String
  | [], acc => if acc.isEmpty then [] else [String.mk acc.reverse]
  | ch :: rest, acc =>
    if ch = '/' then
      if acc.isEmpty then splitSegsAux rest []
      else String.mk acc.reverse :: splitSegsAux rest []
    else splitSegsAux rest (ch :: acc)

/-- JS `path.split('/').filter(Boolean)`. -/
def splitSegs (s : String) : List String :=
  splitSegsAux s.data []

/-! ## Tree Builder (`buildUrlTree`, service worker) -/

/-- The per-URL record `{url, path, depth}` built before the depth sort. -/
structure UrlDepth where
  url : String
  path : String
  depth : Nat
deriving DecidableEq, Repr

/-- Stable insertion into an ascending-by-depth list: a new element goes
before the first strictly deeper element, after equal-depth ones already
present when folding from the right. -/
def insertByDepth (x : UrlDepth) : List UrlDepth → List UrlDepth
  | [] => [x]
  | y :: ys => if x.depth ≤ y.depth then x :: y :: ys else y :: insertByDepth x ys

/-- JS `Array.prototype.sort((a, b) => a.depth - b.depth)`: a stable
ascending sort by depth (stable insertion sort). -/
def sortByDepth (l : List UrlDepth) : List UrlDepth :=
  l.foldr insertByDepth []

/-- The per-URL walk of `buildUrlTree`: follow the path segments from
`node`, creating any missing child (`url` set only on the final
segment), and at the end assign `url` to the exact node if it has none
yet.  The JS original looks nodes up in a global `nodeMap` keyed by
path; since every node's path is its parent's path plus its own segment
plus `/`, that map is exactly the parent-local child lookup used here. -/
def insertPath (url : String) : Node → List String → Node
  | node, [] => if truthy node.url then node else node.withUrl (some url)
  | node, seg :: rest =>
    let newPath := node.path ++ seg ++ "/"
    if node.children.any (fun c => c.path == newPath) then
      node.withChildren (node.children.map (fun c =>
        if c.path == newPath then insertPath url c rest else c))
    else
      node.withChildren (node.children ++
        [insertPath url
          (Node.plain seg (if rest.isEmpty then some url else none) newPath [] none) rest])

/-- Embedding of `buildUrlTree(urls, baseUrl)` (service worker).
`parse u` is `new URL(u).pathname` (`none` when the constructor throws,
so the URL is filtered out); `hostname` is `new URL(baseUrl).hostname`. -/
def buildUrlTree (urls : List String) (parse : String → Option String)
    (hostname baseUrl : String) : Node :=
  let root := Node.plain hostname (some baseUrl) "/" [] none
  let sortedUrls := sortByDepth (urls.filterMap (fun u =>
    (parse u).map (fun p => UrlDepth.mk u p (splitSegs p).length)))
  sortedUrls.foldl (fun t x => insertPath x.url t (splitSegs x.path)) root

/-! ## Representative Selector (`selectRepresentativeUrls`, service worker) -/

/-- The parsed record `{url, path, depth, branch, segments}`. -/
structure ParsedUrl where
  url : String
  path : String
  depth : Nat
  branch : String
  segments : List String
deriving DecidableEq, Repr

/-- The `urls.map(...).filter(Boolean)` preamble: parse each URL, derive
depth/branch/segments, drop unparseable ones. -/
def parseUrls (urls : List String) (parse : String → Option String) : List ParsedUrl :=
  urls.filterMap (fun u => (parse u).map (fun path =>
    let segments := splitSegs path
    ParsedUrl.mk u path segments.length
      (match segments with
       | [] => "_root_"
       | s :: _ => s)
      segments))

/-- `p.depth === 0 || p.path === '/'`, the homepage test. -/
def isHomepage (p : ParsedUrl) : Bool :=
  p.depth == 0 || p.path == "/"

/-- Keys of a JS `Map` built by insertion: first-occurrence order. -/
def firstKeys (xs : List String) : List String :=
  xs.foldl (fun acc b => if b ∈ acc then acc else acc ++ [b]) []

def insertNat (x : Nat) : List Nat → List Nat
  | [] => [x]
  | y :: ys => if x ≤ y then x :: y :: ys else y :: insertNat x ys

/-- `[...byDepth.keys()].sort((a, b) => a - b)`: ascending numeric sort
(insertion sort; the keys are distinct so stability is irrelevant). -/
def sortNat (l : List Nat) : List Nat :=
  l.foldr insertNat []

def firstKeysNat (xs : List Nat) : List Nat :=
  xs.foldl (fun acc b => if b ∈ acc then acc else acc ++ [b]) []

/-- One iteration body of the round-robin `while`: pick the branch at
the rotating index, and when its pointer is still inside its URL list,
consume that URL (pushing it unless already selected) and advance the
pointer.  Returns the updated `(selected, added, branchPointers)`. -/
def rrStep (branches : List String) (byBranch : String → List ParsedUrl)
    (selected : List String) (added branchIndex : Nat) (ptrs : String → Nat) :
    List String × Nat × (String → Nat) :=
  let branch := branches.getD (branchIndex % branches.length) ""
  let branchUrls := byBranch branch
  let pointer := ptrs branch
  match branchUrls.get? pointer with
  | some pu =>
    let candidate := pu.url
    if candidate ∈ selected then
      (selected, added, fun b => if b = branch then pointer + 1 else ptrs b)
    else
      (selected ++ [candidate], added + 1,
       fun b => if b = branch then pointer + 1 else ptrs b)
  | none => (selected, added, ptrs)

/-- The round-robin `while` loop of `selectRepresentativeUrls`.  `fuel`
bounds the iteration count; each iteration advances `branchIndex` by
one, and the JS loop runs at most `(#urls at this depth + 1) *
(#branches + 1)` iterations before one of its three exits fires, so the
fuel passed by `selectAtDepth` is never exhausted before the JS loop
would have exited. -/
def rrLoop (maxPages quota : Nat) (branches : List String)
    (byBranch : String → List ParsedUrl) :
    Nat → List String → Nat → Nat → (String → Nat) → List String
  | 0, selected, _, _, _ => selected
  | fuel + 1, selected, added, branchIndex, ptrs =>
    if added < quota ∧ selected.length < maxPages then
      if branches.all (fun b => (byBranch b).length ≤
          (rrStep branches byBranch selected added branchIndex ptrs).2.2 b) then
        (rrStep branches byBranch selected added branchIndex ptrs).1
      else
        rrLoop maxPages quota branches byBranch fuel
          (rrStep branches byBranch selected added branchIndex ptrs).1
          (rrStep branches byBranch selected added branchIndex ptrs).2.1
          (branchIndex + 1)
          (rrStep branches byBranch selected added branchIndex ptrs).2.2
    else selected

/-- The body of `for (const depth of depths)": group this depth's URLs
by branch and run the round-robin selection. -/
def selectAtDepth (maxPages : Nat) (parsed : List ParsedUrl) (quota : Nat)
    (depth : Nat) (selected : List String) : List String :=
  let urlsAtDepth := parsed.filter (fun p => p.depth == depth)
  let branches := firstKeys (urlsAtDepth.map (fun p => p.branch))
  let byBranch := fun b => urlsAtDepth.filter (fun p => p.branch == b)
  rrLoop maxPages quota branches byBranch
    ((urlsAtDepth.length + 1) * (branches.length + 1) + 1) selected 0 0 (fun _ => 0)

/-- The `for (const depth of depths)` loop with its
`if (selected.length >= maxPages) break`. -/
def selectLoop (maxPages : Nat) (parsed : List ParsedUrl) (quotas : Nat → Nat) :
    List Nat → List String → List String
  | [], selected => selected
  | depth :: rest, selected =>
    if maxPages ≤ selected.length then selected
    else selectLoop maxPages parsed quotas rest
      (selectAtDepth maxPages parsed (quotas depth) depth selected)

/-- Embedding of `selectRepresentativeUrls(urls, maxPages, baseUrl)`.
The JS quota `Math.ceil((weight / totalWeight) * remaining)` is the
integer ceiling below; when JS `remaining` would be negative the JS
quota is `<= 0` and the Nat quota is `0`, and in both cases the
round-robin loop adds nothing, so the Nat truncation is behaviour-
preserving. -/
def selectRepresentativeUrls (urls : List String) (maxPages : Nat) (baseUrl : String)
    (parse : String → Option String) : List String :=
  let parsed := parseUrls urls parse
  let selected0 :=
    match parsed.find? isHomepage with
    | some h => [h.url]
    | none => []
  let selected1 := if baseUrl ∈ selected0 then selected0 else selected0 ++ [baseUrl]
  let depths := sortNat (firstKeysNat (parsed.map (fun p => p.depth)))
  let remaining := maxPages - selected1.length
  let weight := fun (d : Nat) => max 1 (5 - d)
  let totalWeight := (depths.map weight).sum
  let quotas := fun (d : Nat) =>
    if totalWeight = 0 then 0 else (weight d * remaining + totalWeight - 1) / totalWeight
  (selectLoop maxPages parsed quotas depths selected1).take maxPages

/-! ## Capture Orchestrator (`captureScreenshotsDebugger`, service worker)

The chrome plumbing (hidden tab, debugger attach/detach) is abstracted:
`render u` stands for the navigate / wait-for-load / settle-delay /
`Page.captureScreenshot` sequence for `u`, returning the base64 payload
or the thrown error message.  `cancel i` is the value of the cooperative
`shouldCancel` flag read at the top of iteration `i`. -/

structure CaptureResult where
  url : String
  screenshot : Option String
  error : Option String
deriving DecidableEq, Repr

structure ProgressEvent where
  current : Nat
  total : Nat
  url : String
deriving DecidableEq, Repr

/-- The `for (let i = 0; i < urls.length; i++)` loop: check the cancel
flag, emit one progress event, then append the success or failure
record.  Returns results and emitted progress events. -/
def captureLoop (render : String → Except String String) (cancel : Nat → Bool)
    (total : Nat) : List String → Nat → List CaptureResult × List ProgressEvent
  | [], _ => ([], [])
  | url :: rest, i =>
    if cancel i then ([], [])
    else
      let ev : ProgressEvent := ⟨i + 1, total, url⟩
      let r : CaptureResult :=
        match render url with
        | .ok data => ⟨url, some ("data:image/png;base64," ++ data), none⟩
        | .error e => ⟨url, none, some e⟩
      let rec_ := captureLoop render cancel total rest (i + 1)
      (r :: rec_.1, ev :: rec_.2)

/-- Embedding of `captureScreenshotsDebugger(urls, options, onProgress)`. -/
def captureScreenshotsDebugger (urls : List String)
    (render : String → Except String String) (cancel : Nat → Bool) :
    List CaptureResult × List ProgressEvent :=
  captureLoop render cancel urls.length urls 0

/-! ## Screenshot attachment -/

/-- Embedding of `attachScreenshotsToTree(node, screenshotMap)` (service
worker): `screenshotMap` is the JS `Map`, modelled as a partial function
(`none` = `!map.has(url)`).  Sets `node.screenshot` when `node.url` is
truthy and a key of the map, then recurses into the children. -/
def attachScreenshotsToTree (node : Node) (screenshotMap : String → Option String) : Node :=
  match node with
  | .mk n u p cs s e h pp b =>
    let s' :=
      match u with
      | some url =>
        if url = "" then s
        else
          match screenshotMap url with
          | some img => some img
          | none => s
      | none => s
    .mk n u p (cs.attach.map (fun c => attachScreenshotsToTree c.1 screenshotMap)) s' e h pp b
termination_by sizeOf node
decreasing_by
  have := List.sizeOf_lt_of_mem c.2
  simp at this ⊢
  omega

/-- Per-node body of `attachScreenshotsToNodes(nodes, screenshotMap)`
(report.js).  Here the map is a plain JS object, so the guard
`node.url && screenshotMap[node.url]` also tests the *value* for
truthiness. -/
def attachNodeReport (screenshotMap : String → Option String) (node : Node) : Node :=
  match node with
  | .mk n u p cs s e h pp b =>
    let s' :=
      match u with
      | some url =>
        if url = "" then s
        else
          match screenshotMap url with
          | some img => if img = "" then s else some img
          | none => s
      | none => s
    .mk n u p (cs.attach.map (fun c => attachNodeReport screenshotMap c.1)) s' e h pp b
termination_by sizeOf node
decreasing_by
  have := List.sizeOf_lt_of_mem c.2
  simp at this ⊢
  omega

/-- Embedding of `attachScreenshotsToNodes(nodes, screenshotMap)`
(report.js): `forEach` of the per-node body. -/
def attachScreenshotsToNodes (nodes : List Node) (screenshotMap : String → Option String) :
    List Node :=
  nodes.map (attachNodeReport screenshotMap)

/-! ## Path lookup and in-place update (report.js) -/

/-- Embedding of `findNodeByPath(node, targetPath)`: the node itself if
its path matches, else the first match found in the children, left to
right, depth first. -/
def findNodeByPath : Node → String → Option Node
  | .mk n u p cs s e h pp b, target =>
    if p = target then some (.mk n u p cs s e h pp b)
    else cs.attach.findSome? (fun c => findNodeByPath c.1 target)
termination_by n => sizeOf n
decreasing_by
  have := List.sizeOf_lt_of_mem c.2
  simp at this ⊢
  omega

mutual
/-- Apply `f` to the first node (preorder, the traversal order of
`findNodeByPath`) whose path is `target`; the Bool reports whether a
node was found.  This is the pure counterpart of "find the node by path
and mutate it in place". -/
def updateAtPath (target : String) (f : Node → Node) : Node → Node × Bool
  | .mk n u p cs s e h pp b =>
    if p = target then (f (.mk n u p cs s e h pp b), true)
    else
      let r := updateAtPathList target f cs
      (.mk n u p r.1 s e h pp b, r.2)
termination_by n => sizeOf n
decreasing_by
  all_goals (simp; try omega)

/-- The children walk of `updateAtPath`: update the first subtree that
contains the target, keep everything to its right untouched. -/
def updateAtPathList (target : String) (f : Node → Node) : List Node → List Node × Bool
  | [] => ([], false)
  | c :: cs =>
    let rc := updateAtPath target f c
    if rc.2 then (rc.1 :: cs, true)
    else
      let rcs := updateAtPathList target f cs
      (c :: rcs.1, rcs.2)
termination_by l => sizeOf l
decreasing_by
  all_goals (simp; try omega)
end

/-! ## URL collection for expansion (`collectUrlsForCapture`, report.js) -/

mutual
/-- The `for` loop of the inner `collect(nodeList, currentDepth)` of
`collectUrlsForCapture`: per node, bail out at the cap, push a truthy
non-ellipsis url, recurse into nonempty children one level deeper, then
continue with the rest.  `urls` is the accumulator array. -/
def collectFromList (maxCount maxDepth : Nat) :
    List Node → Nat → List String → List String
  | [], _, urls => urls
  | nd :: rest, d, urls =>
    if maxCount ≤ urls.length then urls
    else
      let urls1 := if truthy nd.url && !nd.isEllipsis then urls ++ [nd.url.getD ""] else urls
      let urls2 :=
        if 0 < nd.children.length then collectEnter maxCount maxDepth nd.children (d + 1) urls1
        else urls1
      collectFromList maxCount maxDepth rest d urls2
termination_by nodes _ _ => (sizeOf nodes, 0)
decreasing_by
  · apply Prod.Lex.left
    cases nd
    simp [Node.children] at *
    try omega
  · apply Prod.Lex.left
    simp
    try omega

/-- The guarded entry of `collect(nodeList, currentDepth)`: return at
depth overflow or when the cap is already reached, else run the loop. -/
def collectEnter (maxCount maxDepth : Nat) :
    List Node → Nat → List String → List String
  | nodes, d, urls =>
    if maxDepth < d ∨ maxCount ≤ urls.length then urls
    else collectFromList maxCount maxDepth nodes d urls
termination_by nodes _ _ => (sizeOf nodes, 1)
decreasing_by
  apply Prod.Lex.right
  omega
end

/-- `collectUrlsForCapture(nodes, maxCount)` with the default
`depth = 0, maxDepth = 2`. -/
def collectUrlsForCapture (nodes : List Node) (maxCount : Nat) : List String :=
  collectEnter maxCount 2 nodes 0 []

/-! ## Expansion (`performExpand` and the expand-until-done process) -/

/-- Lookup in an association-list screenshot map (JS object /
`Map(Object.entries(...))`). -/
def lookupMap (m : List (String × String)) (u : String) : Option String :=
  (m.find? (fun p => p.1 == u)).map (fun p => p.2)

/-- Embedding of `performExpand(ellipsisD3Node, newNodes, remainingNodes,
screenshotMap)` (report.js), acting on the display tree: find the owner
by `parentPath`, drop its first ellipsis child
(`findIndex(c => c.isEllipsis)` + `splice`), attach screenshots to the
revealed nodes, deep-copy-and-collapse each and append them, then append
a fresh ellipsis when nodes remain hidden.  When the owner path is not
found the tree is returned unchanged (the JS logs and returns). -/
def performExpand (tree : Node) (parentPath : String)
    (newNodes remainingNodes : List Node)
    (screenshotMap : String → Option String) : Node :=
  let upd := fun (parent : Node) =>
    let cs :=
      match parent.children.findIdx? (fun c => c.isEllipsis) with
      | some i => parent.children.eraseIdx i
      | none => parent.children
    let added := (attachScreenshotsToNodes newNodes screenshotMap).map
      (fun nd => collapseTree nd 5)
    parent.withChildren (cs ++ added ++
      (if remainingNodes.length = 0 then [] else [ellipsisNodeFor parentPath remainingNodes]))
  (updateAtPath parentPath upd tree).1

/-- `ellipsisData.expandBatchSize || 5`. -/
def batchSizeOf (e : Node) : Nat :=
  if e.expandBatchSize = 0 then 5 else e.expandBatchSize

/-- Split a children array at its first ellipsis element:
`findIndex(c => c.isEllipsis)` plus the `splice` bookkeeping, kept as an
explicit before/ellipsis/after decomposition. -/
def splitAtEllipsis : List Node → Option (List Node × Node × List Node)
  | [] => none
  | c :: cs =>
    if c.isEllipsis then some ([], c, cs)
    else
      match splitAtEllipsis cs with
      | some r => some (c :: r.1, r.2.1, r.2.2)
      | none => none

/-- One user expansion of the (first) ellipsis child of `owner`, exactly
the `handleExpandClick` + `performExpand` combination restricted to the
owning node, with no new screenshots (`screenshotMap = {}`): take the
first `expandBatchSize` hidden children as the batch, drop the ellipsis,
append the batch (screenshot-attached with the empty map, then collapsed)
and a fresh ellipsis carrying the remainder if any.  An ellipsis with no
hidden children is left alone (`handleExpandClick` returns early). -/
def expandOwnerOnce (owner : Node) : Node :=
  match splitAtEllipsis owner.children with
  | none => owner
  | some r =>
    let e := r.2.1
    if e.hiddenChildren.length = 0 then owner
    else
      let bs := batchSizeOf e
      let nodesToExpand := e.hiddenChildren.take bs
      let remainingNodes := e.hiddenChildren.drop bs
      let added := (attachScreenshotsToNodes nodesToExpand (fun _ => none)).map
        (fun nd => collapseTree nd 5)
      owner.withChildren (r.1 ++ r.2.2 ++ added ++
        (if remainingNodes.length = 0 then [] else [ellipsisNodeFor e.parentPath remainingNodes]))

def hasEllipsisChild (n : Node) : Bool :=
  n.children.any (fun c => c.isEllipsis)

/-- Click the owner's ellipsis until none is left (fuel-bounded). -/
def revealAll : Nat → Node → Node
  | 0, n => n
  | fuel + 1, n => if hasEllipsisChild n then revealAll fuel (expandOwnerOnce n) else n

/-- Repeatedly expand every ellipsis node of the display tree until none
remains: fully reveal this node's children, then recurse into each
child. -/
def expandFully : Nat → Node → Node
  | 0, n => n
  | fuel + 1, n =>
    let m := revealAll (fuel + 1) n
    m.withChildren (m.children.map (fun c => expandFully fuel c))

/-- No node of the tree is an ellipsis and none carries hidden children:
the shape of every tree the Tree Builder produces (`TreeNode` as opposed
to the display-only `EllipsisNode`). -/
def plainTreeB : Node → Bool
  | .mk _ _ _ cs _ e h _ _ =>
    !e && h.isEmpty && cs.attach.all (fun c => plainTreeB c.1)
termination_by n => sizeOf n
decreasing_by
  have := List.sizeOf_lt_of_mem c.2
  simp at this ⊢
  omega

/-- Every node of the tree has at most `maxChildren` children. -/
def boundedFanOutB (maxChildren : Nat) : Node → Bool
  | .mk _ _ _ cs _ _ _ _ _ =>
    (cs.length ≤ maxChildren : Bool) && cs.attach.all (fun c => boundedFanOutB maxChildren c.1)
termination_by n => sizeOf n
decreasing_by
  have := List.sizeOf_lt_of_mem c.2
  simp at this ⊢
  omega

/-- Parent/child path linkage: every child's path is its parent's path
followed by the child's own name and `/`. -/
def linkedB : Node → Bool
  | .mk _ _ p cs _ _ _ _ _ =>
    cs.attach.all (fun c => (c.1.path == p ++ c.1.name ++ "/") && linkedB c.1)
termination_by n => sizeOf n
decreasing_by
  have := List.sizeOf_lt_of_mem c.2
  simp at this ⊢
  omega

/-! ## Report-page expansion controller state (report.js globals) -/

/-- The pending request recorded in the `pendingExpand` global. -/
inductive PendingExpand where
  | expandReq (parentPath : String) (nodesToExpand remainingNodes : List Node)
  | singleReq (nodePath : String)

/-- The report page's module-level mutable state: the in-flight flag
`isExpanding`, the collapsed display tree `currentTreeData`, the
persisted-dataset mirror `currentReportData` (its `capturedUrlSet` and
`screenshotMap`), and `pendingExpand`. -/
structure ReportState where
  isExpanding : Bool
  tree : Node
  capturedUrlSet : List String
  screenshotMap : List (String × String)
  pending : Option PendingExpand

/-- A message the report page sends to the service worker. -/
inductive ReportMsg where
  | captureMoreReq (urls : List String) (parentPath : String)
deriving Repr

/-- Embedding of `handleExpandClick(ellipsisD3Node)` (report.js) as a
transition on the report-page state, returning the new state and the
messages sent.  `e` is the clicked ellipsis node's data. -/
def handleExpandClick (s : ReportState) (e : Node) : ReportState × List ReportMsg :=
  if s.isExpanding then (s, [])
  else if e.hiddenChildren.length = 0 then (s, [])
  else
    let bs := batchSizeOf e
    let nodesToExpand := e.hiddenChildren.take bs
    let remainingNodes := e.hiddenChildren.drop bs
    let urlsToCapture := collectUrlsForCapture nodesToExpand 10
    let newUrls := urlsToCapture.filter (fun u => u ∉ s.capturedUrlSet)
    if newUrls.length = 0 then
      ({ s with
          tree := performExpand s.tree e.parentPath nodesToExpand remainingNodes (fun _ => none),
          isExpanding := false }, [])
    else
      ({ s with
          isExpanding := true,
          pending := some (.expandReq e.parentPath nodesToExpand remainingNodes) },
       [.captureMoreReq newUrls e.parentPath])

/-- Embedding of `handleSingleNodeCapture(d3Node)` (report.js):
`nodeData` is the clicked placeholder node's data; a tree update stands
for the in-place `nodeData.screenshot = screenshot` on the d3-bound
node. -/
def handleSingleNodeCapture (s : ReportState) (nodeData : Node) : ReportState × List ReportMsg :=
  if s.isExpanding then (s, [])
  else if !truthy nodeData.url || truthy nodeData.screenshot then (s, [])
  else
    let u := nodeData.url.getD ""
    let proceed : ReportState × List ReportMsg :=
      ({ s with isExpanding := true, pending := some (.singleReq nodeData.path) },
       [.captureMoreReq [u] nodeData.path])
    if u ∈ s.capturedUrlSet then
      match lookupMap s.screenshotMap u with
      | some scr =>
        if scr = "" then proceed
        else
          ({ s with
              tree := (updateAtPath nodeData.path
                (fun nd => nd.withScreenshot (some scr)) s.tree).1 }, [])
      | none => proceed
    else proceed

/-! ## Service-worker `captureMoreScreenshots` state -/

/-- The persisted `reportData` record, as far as `captureMoreScreenshots`
touches it. -/
structure StoredReport where
  tree : Node
  screenshotMap : List (String × String)
  capturedUrlSet : List String
  capturedUrls : Nat

/-- Service-worker module state: the `isRunning` flag and the persisted
record in `chrome.storage.local`. -/
structure WorkerState where
  isRunning : Bool
  stored : Option StoredReport

/-- A message the worker sends to the report tab. -/
inductive WorkerMsg where
  | captureMoreProgress (current total : Nat) (url parentPath : String)
  | captureMoreComplete (screenshots : List CaptureResult) (parentPath : String)
  | captureMoreError (error parentPath : String)
deriving DecidableEq, Repr

/-- JS object assignment `reportData.screenshotMap[url] = screenshot`:
replace the entry if the key exists, else append it. -/
def addShot (m : List (String × String)) (u v : String) : List (String × String) :=
  if (m.find? (fun p => p.1 == u)).isSome then
    m.map (fun p => if p.1 == u then (u, v) else p)
  else m ++ [(u, v)]

/-- Embedding of `captureMoreScreenshots(urls, parentPath, options,
sourceTabId)` (service worker), on its non-throwing path: reject when
`isRunning`, else capture sequentially (progress messages to the tab),
fold the truthy screenshots into the stored record, re-attach to the
stored tree, and send the completion message.  `isRunning` is `true`
while the body runs and is reset by the `finally`, so the returned state
carries `isRunning = false`. -/
def captureMoreScreenshots (w : WorkerState) (urls : List String) (parentPath : String)
    (render : String → Except String String) : WorkerState × List WorkerMsg :=
  if w.isRunning then
    (w, [.captureMoreError "Another capture is in progress" parentPath])
  else
    let cap := captureScreenshotsDebugger urls render (fun _ => false)
    let progressMsgs := cap.2.map (fun ev =>
      WorkerMsg.captureMoreProgress ev.current ev.total ev.url parentPath)
    let stored' :=
      match w.stored with
      | none => none
      | some rd =>
        let rd1 := cap.1.foldl (fun rd r =>
          match r.screenshot with
          | some sc =>
            if sc = "" then rd
            else
              { rd with
                  screenshotMap := addShot rd.screenshotMap r.url sc,
                  capturedUrlSet :=
                    if r.url ∈ rd.capturedUrlSet then rd.capturedUrlSet
                    else rd.capturedUrlSet ++ [r.url] }
          | none => rd) rd
        some { rd1 with
                tree := attachScreenshotsToTree rd1.tree (lookupMap rd1.screenshotMap),
                capturedUrls := rd1.capturedUrlSet.length }
    ({ isRunning := false, stored := stored' },
     progressMsgs ++ [.captureMoreComplete (cap.1.filter (fun r => truthy r.screenshot)) parentPath])

/-! ## Structure invariants used by the theorems -/

/-- `true` when the string is a valid path segment as produced by
`splitSegs`: nonempty and slash-free. -/
def segOkB (s : String) : Bool :=
  !s.isEmpty && !s.data.contains '/'

/-- The string ends with `'/'`. -/
def endsSlashB (p : String) : Bool :=
  p.data.getLast? == some '/'

def nodupStr : List String → Bool
  | [] => true
  | x :: xs => !xs.contains x && nodupStr xs

/-- The construction invariant of builder trees: the node's path ends in
`/`, its children have pairwise distinct paths, and every child has a
nonempty slash-free name, path = parent path ++ name ++ `/`, and
recursively the same. -/
inductive Ok : Node → Prop where
  | intro (n : String) (u : Option String) (p : String) (cs : List Node)
      (s : Option String) (e : Bool) (h : List Node) (pp : String) (b : Nat)
      (hslash : endsSlashB p = true)
      (hnodup : nodupStr (cs.map Node.path) = true)
      (hpath : ∀ c ∈ cs, c.path = p ++ c.name ++ "/")
      (hseg : ∀ c ∈ cs, segOkB c.name = true)
      (hok : ∀ c ∈ cs, Ok c) :
      Ok (.mk n u p cs s e h pp b)

/-! ## Concrete sample data used by witnesses and counterexamples -/

/-- A page renderer that fails exactly on `"https://ex.com/b"`. -/
def sampleRender : String → Except String String :=
  fun u => if u = "https://ex.com/b" then .error "boom" else .ok u

/-- A plain leaf child of the root for a one-segment page `/nm/`. -/
def leaf (nm : String) : Node :=
  Node.plain nm (some ("https://ex.com/" ++ nm)) ("/" ++ nm ++ "/") [] none

/-- A root with six leaf children: the smallest tree the collapser
actually collapses. -/
def t6 : Node :=
  Node.plain "ex.com" (some "https://ex.com") "/"
    [leaf "a", leaf "b", leaf "c", leaf "d", leaf "e", leaf "f"] none

/-- A root whose first child is literally named `_more` (as built from a
URL `https://ex.com/_more/`), plus five more children. -/
def tMore : Node :=
  Node.plain "ex.com" (some "https://ex.com") "/"
    [leaf "_more", leaf "b", leaf "c", leaf "d", leaf "e", leaf "f"] none

/-- A report-page state with an expansion in flight. -/
def busyReport : ReportState :=
  { isExpanding := true, tree := t6, capturedUrlSet := ["https://ex.com/a/"],
    screenshotMap := [("https://ex.com/a/", "img")], pending := none }

/-- A worker state with a capture in flight. -/
def busyWorker : WorkerState :=
  { isRunning := true,
    stored := some { tree := t6, screenshotMap := [], capturedUrlSet := [], capturedUrls := 0 } }

/-- A tiny URL parser for sample inputs: pathname of `https://ex.com...`
URLs, `none` otherwise. -/
def sampleParse : String → Option String :=
  fun u =>
    if u = "https://ex.com/" then some "/"
    else if u = "https://ex.com/a/" then some "/a/"
    else if u = "https://ex.com/a/x/" then some "/a/x/"
    else if u = "https://ex.com/b/" then some "/b/"
    else if u = "https://ex.com/_more/" then some "/_more/"
    else if u = "https://ex.com/b" then some "/b"
    else if u = "https://ex.com/c" then some "/c"
    else if u = "https://ex.com/d" then some "/d"
    else if u = "https://ex.com/e" then some "/e"
    else if u = "https://ex.com/f" then some "/f"
    else if u = "https://ex.com/g" then some "/g"
    else none

/-- Sample screenshot map for the attachment claims. -/
def sampleShots : String → Option String :=
  fun u => if u = "https://ex.com/a" then some "imgA" else none

/-- Erase every `screenshot` field along the displayed tree (children,
not hidden children): two trees with equal `stripShot` agree on
everything except screenshots. -/
def stripShot : Node → Node
  | .mk n u p cs _ e h pp b =>
    .mk n u p (cs.attach.map (fun c => stripShot c.1)) none e h pp b
termination_by n => sizeOf n
decreasing_by
  have := List.sizeOf_lt_of_mem c.2
  simp at this ⊢
  omega

/-- The screenshot value a node ends up with after
`attachScreenshotsToTree` with map `m`: the map's image when the node's
url is truthy and a key of the map, its old screenshot otherwise. -/
def expectedShot (m : String → Option String) (nd : Node) : Option String :=
  match nd.url with
  | some url =>
    if url = "" then nd.screenshot
    else
      match m url with
      | some img => some img
      | none => nd.screenshot
  | none => nd.screenshot

/-- Same for the report-page `attachScreenshotsToNodes`, whose JS object
lookup also requires the stored value to be truthy. -/
def expectedShotReport (m : String → Option String) (nd : Node) : Option String :=
  match nd.url with
  | some url =>
    if url = "" then nd.screenshot
    else
      match m url with
      | some img => if img = "" then nd.screenshot else some img
      | none => nd.screenshot
  | none => nd.screenshot

/-- No node of the tree has a child literally named `_more` (the name
whose builder-generated path coincides with the collapser's ellipsis
path suffix). -/
def noMoreNames (t : Node) : Prop :=
  ∀ nd ∈ allNodes t, ∀ c ∈ nd.children, c.name ≠ "_more"

/-!
# Theorems

First, constructor-form unfolding lemmas for the recursively defined
functions (removing the `List.attach` used for termination), then a
membership-based induction principle, then the claim theorems.
-/

theorem attach_all_eq {α : Type} (l : List α) (f : α → Bool) :
    l.attach.all (fun c => f c.1) = l.all f := by
  rw [Bool.eq_iff_iff]
  simp only [List.all_eq_true, List.mem_attach, true_implies]
  constructor
  · intro hall x hx
    exact hall ⟨x, hx⟩
  · intro hall c
    exact hall c.1 c.2

theorem attach_findSome_eq {α β : Type} (l : List α) (f : α → Option β) :
    l.attach.findSome? (fun c => f c.1) = l.findSome? f := by
  induction l with
  | nil => rfl
  | cons x xs ih =>
    rw [List.attach_cons]
    simp only [List.findSome?_cons, List.findSome?_map]
    cases f x with
    | none =>
      rw [← ih]
      congr 1
    | some b => simp

theorem allNodes_mk (n u p cs s e h pp b) :
    allNodes (.mk n u p cs s e h pp b) =
      .mk n u p cs s e h pp b :: cs.flatMap (fun c => allNodes c) := by
  rw [allNodes]
  simp

theorem collapseTree_mk (n u p cs s e h pp b maxC) :
    collapseTree (.mk n u p cs s e h pp b) maxC =
      if cs.length = 0 then .mk n u p cs s e h pp b
      else
        let cs' := cs.map (fun c => collapseTree c maxC)
        if cs'.length > maxC then
          .mk n u p (cs'.take (maxC - 1) ++ [ellipsisNodeFor p (cs'.drop (maxC - 1))]) s e h pp b
        else .mk n u p cs' s e h pp b := by
  rw [collapseTree]
  simp

theorem attachScreenshotsToTree_mk (n u p cs s e h pp b m) :
    attachScreenshotsToTree (.mk n u p cs s e h pp b) m =
      .mk n u p (cs.map (fun c => attachScreenshotsToTree c m))
        (match u with
         | some url =>
           if url = "" then s
           else
             match m url with
             | some img => some img
             | none => s
         | none => s) e h pp b := by
  rw [attachScreenshotsToTree.eq_def]
  simp

theorem attachNodeReport_mk (n u p cs s e h pp b m) :
    attachNodeReport m (.mk n u p cs s e h pp b) =
      .mk n u p (cs.map (fun c => attachNodeReport m c))
        (match u with
         | some url =>
           if url = "" then s
           else
             match m url with
             | some img => if img = "" then s else some img
             | none => s
         | none => s) e h pp b := by
  rw [attachNodeReport.eq_def]
  simp

theorem plainTreeB_mk (n u p cs s e h pp b) :
    plainTreeB (.mk n u p cs s e h pp b) =
      (!e && h.isEmpty && cs.all (fun c => plainTreeB c)) := by
  rw [plainTreeB]
  rw [attach_all_eq]

theorem boundedFanOutB_mk (maxC n u p cs s e h pp b) :
    boundedFanOutB maxC (.mk n u p cs s e h pp b) =
      ((cs.length ≤ maxC : Bool) && cs.all (fun c => boundedFanOutB maxC c)) := by
  rw [boundedFanOutB]
  rw [attach_all_eq]

theorem linkedB_mk (n u p cs s e h pp b) :
    linkedB (.mk n u p cs s e h pp b) =
      cs.all (fun c => (c.path == p ++ c.name ++ "/") && linkedB c) := by
  rw [linkedB]
  exact attach_all_eq cs (fun c => (c.path == p ++ c.name ++ "/") && linkedB c)

theorem findNodeByPath_mk (n u p cs s e h pp b target) :
    findNodeByPath (.mk n u p cs s e h pp b) target =
      if p = target then some (.mk n u p cs s e h pp b)
      else cs.findSome? (fun c => findNodeByPath c target) := by
  rw [findNodeByPath]
  rw [attach_findSome_eq cs (fun c => findNodeByPath c target)]

/-- Induction over `Node` with inductive hypotheses for every child and
every hidden child. -/
theorem Node.ind (P : Node → Prop)
    (step : ∀ n u p cs s e h pp b,
      (∀ c ∈ cs, P c) → (∀ c ∈ h, P c) → P (.mk n u p cs s e h pp b)) :
    ∀ t, P t := by
  have key : ∀ k (t : Node), sizeOf t ≤ k → P t := by
    intro k
    induction k with
    | zero =>
      intro t hle
      cases t with
      | mk n u p cs s e h pp b => simp at hle
    | succ k ih =>
      intro t hle
      cases t with
      | mk n u p cs s e h pp b =>
        apply step
        · intro c hc
          apply ih
          have := List.sizeOf_lt_of_mem hc
          simp at hle
          omega
        · intro c hc
          apply ih
          have := List.sizeOf_lt_of_mem hc
          simp at hle
          omega
  exact fun t => key (sizeOf t) t le_rfl

/-! ## C5: the capture orchestrator without cancellation -/

/-- The per-URL record the loop body appends. -/
def captureOutcome (render : String → Except String String) (u : String) : CaptureResult :=
  match render u with
  | .ok data => ⟨u, some ("data:image/png;base64," ++ data), none⟩
  | .error e => ⟨u, none, some e⟩

theorem captureLoop_spec (render : String → Except String String)
    (cancel : Nat → Bool) (total : Nat) (hc : ∀ i, cancel i = false) :
    ∀ (urls : List String) (start : Nat),
      (captureLoop render cancel total urls start).1 = urls.map (captureOutcome render) ∧
      (captureLoop render cancel total urls start).2 =
        (urls.enumFrom start).map (fun q => ⟨q.1 + 1, total, q.2⟩) := by
  intro urls
  induction urls with
  | nil => intro start; simp [captureLoop]
  | cons u rest ih =>
    intro start
    have h1 := (ih (start + 1)).1
    have h2 := (ih (start + 1)).2
    constructor
    · simp [captureLoop, hc start, h1, captureOutcome]
    · simp [captureLoop, hc start, h2]

theorem enumFrom_currents (l : List String) :
    ∀ n : Nat, (l.enumFrom n).map (fun q : Nat × String => q.1 + 1) =
      List.range' (n + 1) l.length := by
  induction l with
  | nil => intro n; rfl
  | cons x xs ih => intro n; simp [List.enumFrom, List.range', ih (n + 1)]

theorem captureOutcome_url (render : String → Except String String) (u : String) :
    (captureOutcome render u).url = u := by
  rw [captureOutcome]
  cases render u <;> rfl

/-- C5: with the cancellation flag never set, the debugger-based capture
loop produces exactly one result per input URL, in order (`results =
urls.map (captureOutcome render)`, so entry `i` carries `url = urls[i]`,
a failing render yields `{url, screenshot: null, error}`, and a failure
never stops later URLs from being processed); and it emits exactly one
progress event per URL, before the capture, with `current` running
strictly increasing from 1 to N and `total = N`. -/
theorem capture_orchestrator_full_batch (urls : List String)
    (render : String → Except String String) (cancel : Nat → Bool)
    (hc : ∀ i, cancel i = false) :
    (captureScreenshotsDebugger urls render cancel).1 = urls.map (captureOutcome render) ∧
    (captureScreenshotsDebugger urls render cancel).1.map CaptureResult.url = urls ∧
    (captureScreenshotsDebugger urls render cancel).2 =
      (urls.enumFrom 0).map (fun q => ⟨q.1 + 1, urls.length, q.2⟩) ∧
    (captureScreenshotsDebugger urls render cancel).2.length = urls.length ∧
    (captureScreenshotsDebugger urls render cancel).2.map ProgressEvent.current =
      List.range' 1 urls.length ∧
    (∀ u e, render u = .error e → captureOutcome render u = ⟨u, none, some e⟩) := by
  have h := captureLoop_spec render cancel urls.length hc urls 0
  rw [captureScreenshotsDebugger]
  refine ⟨h.1, ?_, h.2, ?_, ?_, ?_⟩
  · rw [h.1, List.map_map]
    have : CaptureResult.url ∘ captureOutcome render = id := by
      funext u
      exact captureOutcome_url render u
    rw [this, List.map_id]
  · rw [h.2]
    simp
  · rw [h.2, List.map_map]
    have : (ProgressEvent.current ∘ fun q : Nat × String => ⟨q.1 + 1, urls.length, q.2⟩) =
        (fun q : Nat × String => q.1 + 1) := by
      funext q
      rfl
    rw [this, enumFrom_currents]
  · intro u e he
    rw [captureOutcome, he]

/-- Witness for C5 at `urls = [a, b, c]` with the render failing on `b`
and the cancel flag constantly false. -/
theorem capture_orchestrator_full_batch_witness :
    (captureScreenshotsDebugger ["https://ex.com/a", "https://ex.com/b", "https://ex.com/c"]
        sampleRender (fun _ => false)).1 =
      ["https://ex.com/a", "https://ex.com/b", "https://ex.com/c"].map
        (captureOutcome sampleRender) ∧
    (captureScreenshotsDebugger ["https://ex.com/a", "https://ex.com/b", "https://ex.com/c"]
        sampleRender (fun _ => false)).1.map CaptureResult.url =
      ["https://ex.com/a", "https://ex.com/b", "https://ex.com/c"] ∧
    (captureScreenshotsDebugger ["https://ex.com/a", "https://ex.com/b", "https://ex.com/c"]
        sampleRender (fun _ => false)).2 =
      ((["https://ex.com/a", "https://ex.com/b", "https://ex.com/c"] : List String).enumFrom 0).map
        (fun q => ⟨q.1 + 1, 3, q.2⟩) ∧
    (captureScreenshotsDebugger ["https://ex.com/a", "https://ex.com/b", "https://ex.com/c"]
        sampleRender (fun _ => false)).2.length = 3 ∧
    (captureScreenshotsDebugger ["https://ex.com/a", "https://ex.com/b", "https://ex.com/c"]
        sampleRender (fun _ => false)).2.map ProgressEvent.current = List.range' 1 3 ∧
    (∀ u e, sampleRender u = .error e → captureOutcome sampleRender u = ⟨u, none, some e⟩) :=
  capture_orchestrator_full_batch
    ["https://ex.com/a", "https://ex.com/b", "https://ex.com/c"]
    sampleRender (fun _ => false) (fun _ => rfl)

/-! ## C7: in-flight operations reject second triggers -/

/-- C7: while an operation is in flight, a second trigger is a no-op:
an ellipsis click or a placeholder click with `isExpanding` set returns
the state unchanged and sends nothing, and a `captureMore` request with
`isRunning` set leaves the worker state (including the persisted
dataset) unchanged, performs no capture, and sends only the error
message for that request — the in-flight operation is untouched. -/
theorem inflight_second_trigger_noop :
    (∀ (s : ReportState) (e : Node), s.isExpanding = true →
      handleExpandClick s e = (s, [])) ∧
    (∀ (s : ReportState) (nd : Node), s.isExpanding = true →
      handleSingleNodeCapture s nd = (s, [])) ∧
    (∀ (w : WorkerState) (urls : List String) (pp : String)
      (render : String → Except String String), w.isRunning = true →
      captureMoreScreenshots w urls pp render =
        (w, [.captureMoreError "Another capture is in progress" pp])) := by
  refine ⟨?_, ?_, ?_⟩
  · intro s e hflag
    rw [handleExpandClick, hflag]
    simp
  · intro s nd hflag
    rw [handleSingleNodeCapture, hflag]
    simp
  · intro w urls pp render hflag
    rw [captureMoreScreenshots, hflag]
    simp

/-- Witness for C7: a busy report page ignores an ellipsis click and a
placeholder click, and a busy worker rejects a `captureMore` request. -/
theorem inflight_second_trigger_noop_witness :
    busyReport.isExpanding = true ∧ busyWorker.isRunning = true ∧
    handleExpandClick busyReport (ellipsisNodeFor "/" [leaf "g"]) = (busyReport, []) ∧
    handleSingleNodeCapture busyReport (leaf "g") = (busyReport, []) ∧
    captureMoreScreenshots busyWorker ["https://ex.com/g"] "/" sampleRender =
      (busyWorker, [.captureMoreError "Another capture is in progress" "/"]) :=
  ⟨rfl, rfl,
    inflight_second_trigger_noop.1 busyReport (ellipsisNodeFor "/" [leaf "g"]) rfl,
    inflight_second_trigger_noop.2.1 busyReport (leaf "g") rfl,
    inflight_second_trigger_noop.2.2 busyWorker ["https://ex.com/g"] "/" sampleRender rfl⟩

/-! ## C10: attaching screenshots touches only screenshot fields -/

theorem stripShot_mk (n u p cs s e h pp b) :
    stripShot (.mk n u p cs s e h pp b) =
      .mk n u p (cs.map (fun c => stripShot c)) none e h pp b := by
  rw [stripShot]
  simp

theorem attachTree_strip (m : String → Option String) :
    ∀ t : Node, stripShot (attachScreenshotsToTree t m) = stripShot t := by
  apply Node.ind
  intro n u p cs s e h pp b ih _
  rw [attachScreenshotsToTree_mk, stripShot_mk, stripShot_mk, List.map_map]
  congr 1
  apply List.map_congr_left
  intro c hc
  exact ih c hc

theorem flatMap_congr_mem {α β : Type} (l : List α) (f g : α → List β)
    (h : ∀ x ∈ l, f x = g x) : l.flatMap f = l.flatMap g := by
  induction l with
  | nil => rfl
  | cons x xs ih =>
    simp only [List.flatMap_cons]
    rw [h x (by simp), ih (fun y hy => h y (by simp [hy]))]

theorem attachTree_shots (m : String → Option String) :
    ∀ t : Node, (allNodes (attachScreenshotsToTree t m)).map Node.screenshot =
      (allNodes t).map (expectedShot m) := by
  apply Node.ind
  intro n u p cs s e h pp b ih _
  rw [attachScreenshotsToTree_mk, allNodes_mk, allNodes_mk]
  simp only [List.map_cons, List.map_flatMap, List.flatMap_map]
  congr 1
  apply flatMap_congr_mem
  intro c hc
  exact ih c hc

theorem attachReport_strip (m : String → Option String) :
    ∀ t : Node, stripShot (attachNodeReport m t) = stripShot t := by
  apply Node.ind
  intro n u p cs s e h pp b ih _
  rw [attachNodeReport_mk, stripShot_mk, stripShot_mk, List.map_map]
  congr 1
  apply List.map_congr_left
  intro c hc
  exact ih c hc

theorem attachReport_shots (m : String → Option String) :
    ∀ t : Node, (allNodes (attachNodeReport m t)).map Node.screenshot =
      (allNodes t).map (expectedShotReport m) := by
  apply Node.ind
  intro n u p cs s e h pp b ih _
  rw [attachNodeReport_mk, allNodes_mk, allNodes_mk]
  simp only [List.map_cons, List.map_flatMap, List.flatMap_map]
  congr 1
  apply flatMap_congr_mem
  intro c hc
  exact ih c hc

/-- C10: screenshot attachment modifies only screenshot fields.  For
both the service-worker `attachScreenshotsToTree` and the report-page
`attachScreenshotsToNodes`: everything except screenshots (names, urls,
paths, the whole child structure) is unchanged (`stripShot` equality);
each node's resulting screenshot follows the map rule; and a node whose
url is not a key of the map keeps its screenshot — in particular an
already-attached screenshot is never cleared. -/
theorem attach_modifies_only_screenshots (m : String → Option String) :
    (∀ t : Node, stripShot (attachScreenshotsToTree t m) = stripShot t) ∧
    (∀ t : Node, (allNodes (attachScreenshotsToTree t m)).map Node.screenshot =
      (allNodes t).map (expectedShot m)) ∧
    (∀ nodes : List Node,
      (attachScreenshotsToNodes nodes m).map stripShot = nodes.map stripShot) ∧
    (∀ nodes : List Node,
      (attachScreenshotsToNodes nodes m).map (fun t => (allNodes t).map Node.screenshot) =
        nodes.map (fun t => (allNodes t).map (expectedShotReport m))) ∧
    (∀ nd : Node, (∀ s, nd.url = some s → m s = none) →
      expectedShot m nd = nd.screenshot ∧ expectedShotReport m nd = nd.screenshot) := by
  refine ⟨attachTree_strip m, attachTree_shots m, ?_, ?_, ?_⟩
  · intro nodes
    rw [attachScreenshotsToNodes, List.map_map]
    apply List.map_congr_left
    intro c _
    exact attachReport_strip m c
  · intro nodes
    rw [attachScreenshotsToNodes, List.map_map]
    apply List.map_congr_left
    intro c _
    exact attachReport_shots m c
  · intro nd hnone
    rw [expectedShot, expectedShotReport]
    cases hu : nd.url with
    | none => exact ⟨rfl, rfl⟩
    | some s =>
      simp [hnone s hu]

/-- Witness for C10 at a concrete tree and map: the final conjunct's
hypothesis is discharged for the node `leaf "g"`, whose url is not a key
of `sampleShots`. -/
theorem attach_modifies_only_screenshots_witness :
    stripShot (attachScreenshotsToTree t6 sampleShots) = stripShot t6 ∧
    expectedShot sampleShots (leaf "g") = (leaf "g").screenshot :=
  ⟨(attach_modifies_only_screenshots sampleShots).1 t6,
   ((attach_modifies_only_screenshots sampleShots).2.2.2.2 (leaf "g")
     (by
       intro s hs
       simp [leaf, Node.plain, Node.url] at hs
       rw [← hs]
       rfl)).1⟩

/-! ## C2: the collapser's children bound -/

/-- `collapseTree` only ever rewrites the `children` array: all other
fields are returned unchanged. -/
theorem collapseTree_fields (t : Node) (maxC : Nat) :
    (collapseTree t maxC).name = t.name ∧
    (collapseTree t maxC).url = t.url ∧
    (collapseTree t maxC).path = t.path ∧
    (collapseTree t maxC).screenshot = t.screenshot ∧
    (collapseTree t maxC).isEllipsis = t.isEllipsis ∧
    (collapseTree t maxC).hiddenChildren = t.hiddenChildren ∧
    (collapseTree t maxC).parentPath = t.parentPath ∧
    (collapseTree t maxC).expandBatchSize = t.expandBatchSize := by
  cases t with
  | mk n u p cs s e h pp b =>
    rw [collapseTree_mk]
    by_cases h0 : cs.length = 0
    · simp [h0, Node.name, Node.url, Node.path, Node.screenshot, Node.isEllipsis,
        Node.hiddenChildren, Node.parentPath, Node.expandBatchSize]
    · by_cases hgt : maxC < cs.length
      · simp [h0, hgt, Node.name, Node.url, Node.path, Node.screenshot, Node.isEllipsis,
          Node.hiddenChildren, Node.parentPath, Node.expandBatchSize]
      · simp [h0, hgt, Node.name, Node.url, Node.path, Node.screenshot, Node.isEllipsis,
          Node.hiddenChildren, Node.parentPath, Node.expandBatchSize]

/-- C2: with `maxChildren = 5`, a node with `k > 5` children ends up
with exactly 5 children: the first 4 input children (each recursively
collapsed) followed by exactly one ellipsis node whose `hiddenChildren`
are the remaining `k - 4` (each recursively collapsed); a node with
`k ≤ 5` children keeps all `k` children, recursively collapsed, with no
ellipsis appended.  The last conjunct shows the kept children are
"real" whenever the input children are: collapsing never turns a
non-ellipsis child into an ellipsis. -/
theorem collapser_children_bound (t : Node) :
    (5 < t.children.length →
      (collapseTree t 5).children =
        (t.children.take 4).map (fun c => collapseTree c 5) ++
          [ellipsisNodeFor t.path ((t.children.drop 4).map (fun c => collapseTree c 5))] ∧
      (collapseTree t 5).children.length = 5 ∧
      ∃ e, (collapseTree t 5).children.getLast? = some e ∧ e.isEllipsis = true ∧
        e.hiddenChildren = (t.children.drop 4).map (fun c => collapseTree c 5) ∧
        e.hiddenChildren.length = t.children.length - 4) ∧
    (t.children.length ≤ 5 →
      (collapseTree t 5).children = t.children.map (fun c => collapseTree c 5) ∧
      (collapseTree t 5).children.length = t.children.length) ∧
    (∀ c ∈ t.children, (collapseTree c 5).isEllipsis = c.isEllipsis) := by
  cases t with
  | mk n u p cs s e h pp b =>
    refine ⟨?_, ?_, ?_⟩
    · intro hbig
      simp only [Node.children] at hbig ⊢
      rw [collapseTree_mk]
      have hne : ¬ cs.length = 0 := by omega
      simp only [hne, if_false, Node.path]
      have hlen : (cs.map (fun c => collapseTree c 5)).length = cs.length := by simp
      have hgt : (cs.map (fun c => collapseTree c 5)).length > 5 := by omega
      simp only [hgt, if_true, Node.children]
      refine ⟨by rw [List.map_take, List.map_drop], ?_, ?_⟩
      · simp
        try omega
      · refine ⟨ellipsisNodeFor p ((cs.map (fun c => collapseTree c 5)).drop 4), ?_, rfl, ?_, ?_⟩
        · rw [List.getLast?_concat]
        · rw [ellipsisNodeFor]
          simp [Node.hiddenChildren, List.map_drop]
        · rw [ellipsisNodeFor]
          simp [Node.hiddenChildren]
          try omega
    · intro hsmall
      simp only [Node.children] at hsmall ⊢
      rw [collapseTree_mk]
      by_cases hz : cs.length = 0
      · have : cs = [] := List.length_eq_zero.mp hz
        subst this
        simp [Node.children]
      · have hlen : (cs.map (fun c => collapseTree c 5)).length = cs.length := by simp
        have hngt : ¬ (cs.map (fun c => collapseTree c 5)).length > 5 := by omega
        simp only [hz, if_false, hngt, Node.children]
        simp
    · intro c _
      exact (collapseTree_fields c 5).2.2.2.2.1

/-- Witness for C2 at the six-child tree `t6`: the big-side hypothesis
holds and the collapsed root has exactly 5 children, the last an
ellipsis hiding 2 subtrees. -/
theorem collapser_children_bound_witness :
    5 < t6.children.length ∧
    (collapseTree t6 5).children.length = 5 :=
  ⟨by decide, ((collapser_children_bound t6).1 (by decide)).2.1⟩

/-! ## C9: collapsing is idempotent -/

theorem collapse_leaf (n u p s e h pp b maxC) :
    collapseTree (.mk n u p [] s e h pp b) maxC = .mk n u p [] s e h pp b := by
  rw [collapseTree_mk]
  simp

theorem collapse_ellipsis (pp' hidden maxC) :
    collapseTree (ellipsisNodeFor pp' hidden) maxC = ellipsisNodeFor pp' hidden := by
  rw [ellipsisNodeFor]
  exact collapse_leaf _ _ _ _ _ _ _ _ _

/-- After one collapse with bound 5 every node of the result has at most
5 children. -/
theorem collapse_bounded : ∀ t : Node, boundedFanOutB 5 (collapseTree t 5) = true := by
  apply Node.ind
  intro n u p cs s e h pp b ih _
  rw [collapseTree_mk]
  by_cases h0 : cs.length = 0
  · have : cs = [] := List.length_eq_zero.mp h0
    subst this
    simp [boundedFanOutB_mk]
  · by_cases hgt : 5 < cs.length
    · have hc : (cs.map (fun c => collapseTree c 5)).length > 5 := by simp; omega
      simp only [h0, if_false, hc, if_true, boundedFanOutB_mk]
      rw [Bool.and_eq_true, List.all_eq_true]
      constructor
      · simp
      · intro x hx
        rw [List.mem_append] at hx
        cases hx with
        | inl hx =>
          have hx' := List.mem_of_mem_take hx
          rw [List.mem_map] at hx'
          obtain ⟨c, hc1, hc2⟩ := hx'
          rw [← hc2]
          exact ih c hc1
        | inr hx =>
          simp at hx
          subst hx
          rw [ellipsisNodeFor, boundedFanOutB_mk]
          simp
    · have hc : ¬ (cs.map (fun c => collapseTree c 5)).length > 5 := by simp; omega
      simp only [h0, if_false, hc, boundedFanOutB_mk]
      rw [Bool.and_eq_true, List.all_eq_true]
      constructor
      · simp
        omega
      · intro x hx
        rw [List.mem_map] at hx
        obtain ⟨c, hc1, hc2⟩ := hx
        rw [← hc2]
        exact ih c hc1

/-- Collapsing an already-collapsed tree changes nothing. -/
theorem collapse_collapse : ∀ t : Node, collapseTree (collapseTree t 5) 5 = collapseTree t 5 := by
  apply Node.ind
  intro n u p cs s e h pp b ih _
  by_cases h0 : cs.length = 0
  · have : cs = [] := List.length_eq_zero.mp h0
    subst this
    rw [collapse_leaf, collapse_leaf]
  · by_cases hgt : 5 < cs.length
    · have hc : (cs.map (fun c => collapseTree c 5)).length > 5 := by simp; omega
      rw [collapseTree_mk]
      simp only [h0, if_false, hc, if_true]
      rw [collapseTree_mk]
      have hX0 : ¬ ((cs.map (fun c => collapseTree c 5)).take (5 - 1) ++
          [ellipsisNodeFor p ((cs.map (fun c => collapseTree c 5)).drop (5 - 1))]).length = 0 := by
        simp
      have hX5 : ¬ (((cs.map (fun c => collapseTree c 5)).take (5 - 1) ++
          [ellipsisNodeFor p ((cs.map (fun c => collapseTree c 5)).drop (5 - 1))]).map
            (fun c => collapseTree c 5)).length > 5 := by
        simp
        try omega
      simp only [hX0, if_false, hX5]
      congr 1
      rw [List.map_append]
      congr 1
      · rw [List.map_take, List.map_map]
        congr 1
        apply List.map_congr_left
        intro c hcmem
        show collapseTree (collapseTree c 5) 5 = collapseTree c 5
        exact ih c hcmem
      · simp [collapse_ellipsis]
    · have hc : ¬ (cs.map (fun c => collapseTree c 5)).length > 5 := by simp; omega
      rw [collapseTree_mk]
      simp only [h0, if_false, hc]
      rw [collapseTree_mk]
      have h0' : ¬ (cs.map (fun c => collapseTree c 5)).length = 0 := by
        simp only [List.length_map]
        omega
      have hc2 : ¬ ((cs.map (fun c => collapseTree c 5)).map
          (fun c => collapseTree c 5)).length > 5 := by simp; omega
      simp only [h0', if_false, hc2]
      congr 1
      rw [List.map_map]
      apply List.map_congr_left
      intro c hcmem
      show collapseTree (collapseTree c 5) 5 = collapseTree c 5
      exact ih c hcmem

/-- C9: `collapseTree` is idempotent at `maxChildren = 5`:
collapsing an already-collapsed tree is the identity, because after one
collapse every node has at most 5 children (second conjunct) and every
ellipsis node has no children. -/
theorem collapser_idempotent (t : Node) :
    collapseTree (collapseTree t 5) 5 = collapseTree t 5 ∧
    boundedFanOutB 5 (collapseTree t 5) = true :=
  ⟨collapse_collapse t, collapse_bounded t⟩

/-! ## C6: the collapser mutates the tree it is given -/

/-- Counterexample to C6 as stated: `collapseTree` reassigns
`node.children` in place, so after the call the source tree it was given
equals the collapsed result; on a root with six children that result is
*not* structurally equal to the original (5 children instead of 6). -/
theorem collapser_mutates_source : collapseTree t6 5 ≠ t6 := by
  intro hEq
  have h6 : t6.children.length = 6 := by decide
  have h5 : (collapseTree t6 5).children.length = 5 := by
    rw [show t6 = Node.mk "ex.com" (some "https://ex.com") "/"
      [leaf "a", leaf "b", leaf "c", leaf "d", leaf "e", leaf "f"] none false [] "" 0 from rfl]
    rw [collapseTree_mk]
    simp [Node.children]
  rw [hEq, h6] at h5
  omega

/-- C6 amended: `collapseTree` returns its argument mutated in place, so
the argument is structurally unchanged precisely when no node's children
exceed `maxChildren`; the report page protects the persisted source tree
by collapsing a `JSON.parse(JSON.stringify(...))` deep copy instead. -/
theorem collapser_noop_on_bounded :
    ∀ t : Node, boundedFanOutB 5 t = true → collapseTree t 5 = t := by
  apply Node.ind
  intro n u p cs s e h pp b ih _ hb
  rw [boundedFanOutB_mk, Bool.and_eq_true, List.all_eq_true] at hb
  obtain ⟨hlen, hkids⟩ := hb
  have hlen' : cs.length ≤ 5 := by
    rw [decide_eq_true_eq] at hlen
    exact hlen
  rw [collapseTree_mk]
  by_cases h0 : cs.length = 0
  · simp [h0]
  · have hc : ¬ (cs.map (fun c => collapseTree c 5)).length > 5 := by
      simp only [List.length_map]
      omega
    simp only [h0, if_false, hc]
    congr 1
    have : cs.map (fun c => collapseTree c 5) = cs.map id := by
      apply List.map_congr_left
      intro c hcmem
      exact ih c hcmem (hkids c hcmem)
    rw [this, List.map_id]

/-- Witness for the amended C6 at a single bounded node. -/
theorem collapser_noop_on_bounded_witness :
    boundedFanOutB 5 (leaf "a") = true ∧ collapseTree (leaf "a") 5 = leaf "a" :=
  ⟨by simp [leaf, Node.plain, boundedFanOutB_mk],
   collapser_noop_on_bounded (leaf "a") (by simp [leaf, Node.plain, boundedFanOutB_mk])⟩

/-! ## C3: the representative selector's guarantees -/

theorem nodup_push (l : List String) (x : String) (hl : l.Nodup) (hx : x ∉ l) :
    (l ++ [x]).Nodup := by
  simp [List.nodup_append, hl, hx]

theorem rrStep_extends (branches : List String) (byBranch : String → List ParsedUrl)
    (selected : List String) (added branchIndex : Nat) (ptrs : String → Nat) :
    (rrStep branches byBranch selected added branchIndex ptrs).1 = selected ∨
      ∃ cand, cand ∉ selected ∧
        (rrStep branches byBranch selected added branchIndex ptrs).1 = selected ++ [cand] := by
  unfold rrStep
  cases hget : (byBranch (branches.getD (branchIndex % branches.length) "")).get?
      (ptrs (branches.getD (branchIndex % branches.length) "")) with
  | none =>
    simp only [hget]
    exact Or.inl trivial
  | some pu =>
    simp only [hget]
    by_cases hmem : pu.url ∈ selected
    · simp only [hmem, if_true]
      exact Or.inl trivial
    · simp only [hmem, if_false]
      exact Or.inr ⟨pu.url, hmem, rfl⟩

theorem rrLoop_extends (maxPages quota : Nat) (branches : List String)
    (byBranch : String → List ParsedUrl) :
    ∀ fuel sel added bi ptrs,
      ∃ tail, rrLoop maxPages quota branches byBranch fuel sel added bi ptrs = sel ++ tail := by
  intro fuel
  induction fuel with
  | zero =>
    intro sel added bi ptrs
    exact ⟨[], by rw [rrLoop]; simp⟩
  | succ fuel ih =>
    intro sel added bi ptrs
    rw [rrLoop]
    by_cases hcond : added < quota ∧ sel.length < maxPages
    · rw [if_pos hcond]
      have hstep := rrStep_extends branches byBranch sel added bi ptrs
      by_cases hall : (branches.all fun b => decide ((byBranch b).length ≤
          (rrStep branches byBranch sel added bi ptrs).2.2 b)) = true
      · rw [if_pos hall]
        cases hstep with
        | inl hs => exact ⟨[], by rw [hs, List.append_nil]⟩
        | inr hs =>
          obtain ⟨cand, _, hs⟩ := hs
          exact ⟨[cand], hs⟩
      · rw [if_neg hall]
        obtain ⟨t, ht⟩ := ih (rrStep branches byBranch sel added bi ptrs).1
          (rrStep branches byBranch sel added bi ptrs).2.1 (bi + 1)
          (rrStep branches byBranch sel added bi ptrs).2.2
        rw [ht]
        cases hstep with
        | inl hs =>
          rw [hs]
          exact ⟨t, rfl⟩
        | inr hs =>
          obtain ⟨cand, _, hs⟩ := hs
          rw [hs, List.append_assoc]
          exact ⟨[cand] ++ t, rfl⟩
    · rw [if_neg hcond]
      exact ⟨[], by simp⟩

theorem rrStep_nodup (branches : List String) (byBranch : String → List ParsedUrl)
    (sel : List String) (added bi : Nat) (ptrs : String → Nat) (h : sel.Nodup) :
    (rrStep branches byBranch sel added bi ptrs).1.Nodup := by
  cases rrStep_extends branches byBranch sel added bi ptrs with
  | inl hs =>
    rw [hs]
    exact h
  | inr hs =>
    obtain ⟨c, hc, hs⟩ := hs
    rw [hs]
    exact nodup_push _ _ h hc

theorem rrLoop_nodup (maxPages quota : Nat) (branches : List String)
    (byBranch : String → List ParsedUrl) :
    ∀ fuel sel added bi ptrs, sel.Nodup →
      (rrLoop maxPages quota branches byBranch fuel sel added bi ptrs).Nodup := by
  intro fuel
  induction fuel with
  | zero =>
    intro sel added bi ptrs h
    rw [rrLoop]
    exact h
  | succ fuel ih =>
    intro sel added bi ptrs h
    rw [rrLoop]
    by_cases hcond : added < quota ∧ sel.length < maxPages
    · rw [if_pos hcond]
      by_cases hall : (branches.all fun b => decide ((byBranch b).length ≤
          (rrStep branches byBranch sel added bi ptrs).2.2 b)) = true
      · rw [if_pos hall]
        exact rrStep_nodup branches byBranch sel added bi ptrs h
      · rw [if_neg hall]
        exact ih _ _ _ _ (rrStep_nodup branches byBranch sel added bi ptrs h)
    · rw [if_neg hcond]
      exact h

theorem selectAtDepth_extends (maxPages : Nat) (parsed : List ParsedUrl) (quota depth : Nat)
    (sel : List String) :
    ∃ tail, selectAtDepth maxPages parsed quota depth sel = sel ++ tail := by
  rw [selectAtDepth]
  exact rrLoop_extends _ _ _ _ _ _ _ _ _

theorem selectAtDepth_nodup (maxPages : Nat) (parsed : List ParsedUrl) (quota depth : Nat)
    (sel : List String) (h : sel.Nodup) :
    (selectAtDepth maxPages parsed quota depth sel).Nodup := by
  rw [selectAtDepth]
  exact rrLoop_nodup _ _ _ _ _ _ _ _ _ h

theorem selectLoop_extends (maxPages : Nat) (parsed : List ParsedUrl) (quotas : Nat → Nat) :
    ∀ depths sel, ∃ tail, selectLoop maxPages parsed quotas depths sel = sel ++ tail := by
  intro depths
  induction depths with
  | nil =>
    intro sel
    exact ⟨[], by rw [selectLoop]; simp⟩
  | cons d rest ih =>
    intro sel
    rw [selectLoop]
    by_cases hb : maxPages ≤ sel.length
    · rw [if_pos hb]
      exact ⟨[], by simp⟩
    · rw [if_neg hb]
      obtain ⟨t1, ht1⟩ := selectAtDepth_extends maxPages parsed (quotas d) d sel
      obtain ⟨t2, ht2⟩ := ih (selectAtDepth maxPages parsed (quotas d) d sel)
      rw [ht2, ht1, List.append_assoc]
      exact ⟨t1 ++ t2, rfl⟩

theorem selectLoop_nodup (maxPages : Nat) (parsed : List ParsedUrl) (quotas : Nat → Nat) :
    ∀ depths sel, sel.Nodup → (selectLoop maxPages parsed quotas depths sel).Nodup := by
  intro depths
  induction depths with
  | nil =>
    intro sel h
    rw [selectLoop]
    exact h
  | cons d rest ih =>
    intro sel h
    rw [selectLoop]
    by_cases hb : maxPages ≤ sel.length
    · rw [if_pos hb]
      exact h
    · rw [if_neg hb]
      exact ih _ (selectAtDepth_nodup maxPages parsed (quotas d) d sel h)

/-- C3: the representative selector returns at most `maxPages` URLs,
its output is duplicate-free (a candidate already present — e.g. the
homepage reappearing at depth 0 — is skipped, not re-added), and when
the input contains a parseable URL of depth 0 or exact path `/`, the
homepage URL found first is part of the output. -/
theorem selector_guarantees (urls : List String) (maxPages : Nat) (baseUrl : String)
    (parse : String → Option String) (hmax : 1 ≤ maxPages) :
    (selectRepresentativeUrls urls maxPages baseUrl parse).length ≤ maxPages ∧
    (selectRepresentativeUrls urls maxPages baseUrl parse).Nodup ∧
    (∀ h, (parseUrls urls parse).find? isHomepage = some h →
      h.url ∈ selectRepresentativeUrls urls maxPages baseUrl parse) := by
  rw [selectRepresentativeUrls]
  refine ⟨?_, ?_, ?_⟩
  · rw [List.length_take]
    exact Nat.min_le_left _ _
  · apply List.Nodup.sublist (List.take_sublist _ _)
    apply selectLoop_nodup
    cases hfind : (parseUrls urls parse).find? isHomepage with
    | none =>
      simp only [hfind]
      by_cases hb : baseUrl ∈ ([] : List String)
      · rw [if_pos hb]
        exact List.nodup_nil
      · rw [if_neg hb]
        simp
    | some h =>
      simp only [hfind]
      by_cases hb : baseUrl ∈ [h.url]
      · rw [if_pos hb]
        simp
      · rw [if_neg hb]
        refine nodup_push _ _ (by simp) hb
  · intro h hfind
    simp only [hfind]
    have hsel1 : ∃ rest, (if baseUrl ∈ [h.url] then [h.url] else [h.url] ++ [baseUrl]) =
        h.url :: rest := by
      by_cases hb : baseUrl ∈ [h.url]
      · rw [if_pos hb]
        exact ⟨[], rfl⟩
      · rw [if_neg hb]
        exact ⟨[baseUrl], rfl⟩
    obtain ⟨rest, hrest⟩ := hsel1
    rw [hrest]
    obtain ⟨tail, htail⟩ := selectLoop_extends maxPages (parseUrls urls parse) _ _ (h.url :: rest)
    rw [htail]
    obtain ⟨m, hm⟩ := Nat.exists_eq_add_of_le hmax
    rw [hm]
    simp [List.take_cons]

/-- Witness for C3 at `maxPages = 10` over three URLs containing the
homepage. -/
theorem selector_guarantees_witness :
    (selectRepresentativeUrls ["https://ex.com/a/", "https://ex.com/", "https://ex.com/b/"]
      10 "https://ex.com" sampleParse).length ≤ 10 ∧
    (selectRepresentativeUrls ["https://ex.com/a/", "https://ex.com/", "https://ex.com/b/"]
      10 "https://ex.com" sampleParse).Nodup ∧
    "https://ex.com/" ∈ selectRepresentativeUrls
      ["https://ex.com/a/", "https://ex.com/", "https://ex.com/b/"] 10 "https://ex.com"
      sampleParse :=
  ⟨(selector_guarantees ["https://ex.com/a/", "https://ex.com/", "https://ex.com/b/"]
      10 "https://ex.com" sampleParse (by decide)).1,
   (selector_guarantees ["https://ex.com/a/", "https://ex.com/", "https://ex.com/b/"]
      10 "https://ex.com" sampleParse (by decide)).2.1,
   (selector_guarantees ["https://ex.com/a/", "https://ex.com/", "https://ex.com/b/"]
      10 "https://ex.com" sampleParse (by decide)).2.2
     ⟨"https://ex.com/", "/", 0, "_root_", []⟩ (by decide)⟩

/-! ## C8: the ellipsis path can collide with a real child named `_more` -/

/-- Counterexample to C8 as stated: build the tree for a site whose
pages include `/_more/` plus five more one-segment pages; collapsing it
appends an ellipsis whose path `/_more/` equals the path of the real
(kept, non-ellipsis) child named `_more`. -/
theorem ellipsis_path_collides :
    ∃ c ∈ (collapseTree (buildUrlTree
        ["https://ex.com/_more/", "https://ex.com/b", "https://ex.com/c",
         "https://ex.com/d", "https://ex.com/e", "https://ex.com/f"]
        sampleParse "ex.com" "https://ex.com") 5).children,
      c.isEllipsis = false ∧
      ∃ e ∈ (collapseTree (buildUrlTree
          ["https://ex.com/_more/", "https://ex.com/b", "https://ex.com/c",
           "https://ex.com/d", "https://ex.com/e", "https://ex.com/f"]
          sampleParse "ex.com" "https://ex.com") 5).children,
        e.isEllipsis = true ∧ c.path = e.path := by
  have hb : buildUrlTree
      ["https://ex.com/_more/", "https://ex.com/b", "https://ex.com/c",
       "https://ex.com/d", "https://ex.com/e", "https://ex.com/f"]
      sampleParse "ex.com" "https://ex.com" =
      Node.mk "ex.com" (some "https://ex.com") "/"
        [Node.plain "_more" (some "https://ex.com/_more/") "/_more/" [] none,
         Node.plain "b" (some "https://ex.com/b") "/b/" [] none,
         Node.plain "c" (some "https://ex.com/c") "/c/" [] none,
         Node.plain "d" (some "https://ex.com/d") "/d/" [] none,
         Node.plain "e" (some "https://ex.com/e") "/e/" [] none,
         Node.plain "f" (some "https://ex.com/f") "/f/" [] none] none false [] "" 0 := by
    rfl
  rw [hb, collapseTree_mk]
  simp only [Node.plain, List.length_cons, List.length_nil, List.map_cons, List.map_nil,
    collapse_leaf]
  norm_num
  refine ⟨Node.mk "_more" (some "https://ex.com/_more/") "/_more/" [] none false [] "" 0,
    ?_, rfl, ellipsisNodeFor "/"
      [Node.mk "e" (some "https://ex.com/e") "/e/" [] none false [] "" 0,
       Node.mk "f" (some "https://ex.com/f") "/f/" [] none false [] "" 0], ?_, rfl, ?_⟩
  · simp [Node.children]
  · simp [Node.children, ellipsisNodeFor]
  · rw [ellipsisNodeFor]
    simp [Node.path]

theorem nodupStr_iff : ∀ l : List String, nodupStr l = true ↔ l.Nodup := by
  intro l
  induction l with
  | nil => simp [nodupStr]
  | cons x xs ih =>
    rw [nodupStr, Bool.and_eq_true, List.nodup_cons, ih]
    simp [List.contains]

theorem append_seg_slash_inj (p a b : String) :
    p ++ a ++ "/" = p ++ (b ++ "/") → a = b := by
  intro hEq
  have hd : (p ++ a ++ "/").data = (p ++ (b ++ "/")).data := by rw [hEq]
  rw [String.data_append, String.data_append, String.data_append, String.data_append] at hd
  rw [List.append_assoc] at hd
  have h1 := List.append_cancel_left hd
  have h2 := List.append_cancel_right h1
  exact String.ext h2

theorem mem_allNodes_self : ∀ t : Node, t ∈ allNodes t := by
  intro t
  cases t with
  | mk n u p cs s e h pp b =>
    rw [allNodes_mk]
    exact List.mem_cons_self _ _

theorem mem_allNodes_child (t c x : Node) (hc : c ∈ t.children) (hx : x ∈ allNodes c) :
    x ∈ allNodes t := by
  cases t with
  | mk n u p cs s e h pp b =>
    rw [allNodes_mk]
    simp only [Node.children] at hc
    apply List.mem_cons_of_mem
    rw [List.mem_flatMap]
    exact ⟨c, hc, hx⟩

theorem noMoreNames_child (t c : Node) (hc : c ∈ t.children) (hNo : noMoreNames t) :
    noMoreNames c := by
  intro nd hnd cc hcc
  exact hNo nd (mem_allNodes_child t c nd hc hnd) cc hcc

/-- C8 amended: under the builder invariant (`Ok`) and provided no node
has a child literally named `_more`, the ellipsis node appended by the
collapser never shares its path with a real (non-ellipsis) sibling, at
any node of the collapsed tree. -/
theorem ellipsis_path_fresh :
    ∀ t : Node, Ok t → noMoreNames t →
      ∀ m ∈ allNodes (collapseTree t 5), ∀ e ∈ m.children, e.isEllipsis = true →
        ∀ c ∈ m.children, c.isEllipsis = false → c.path ≠ e.path := by
  apply Node.ind
  intro n u p cs s e0 h0 pp b ih _ hOk hNo
  have hcp : ∀ c : Node, (collapseTree c 5).path = c.path :=
    fun c => (collapseTree_fields c 5).2.2.1
  have hcf : ∀ c : Node, (collapseTree c 5).isEllipsis = c.isEllipsis :=
    fun c => (collapseTree_fields c 5).2.2.2.2.1
  cases hOk with
  | intro _ _ _ _ _ _ _ _ _ hslash hnodup hpath hseg hok =>
    have hnodup' : (cs.map Node.path).Nodup := (nodupStr_iff _).mp hnodup
    have hnoRoot : ∀ c ∈ cs, c.name ≠ "_more" := by
      intro c hc
      exact hNo (.mk n u p cs s e0 h0 pp b) (mem_allNodes_self _) c
        (by simpa [Node.children] using hc)
    have hsib : ∀ ce ∈ cs, ∀ cc ∈ cs, ce.isEllipsis = true → cc.isEllipsis = false →
        (collapseTree cc 5).path ≠ (collapseTree ce 5).path := by
      intro ce hce cc hcc hef hcf' heq
      rw [hcp, hcp] at heq
      have := List.inj_on_of_nodup_map hnodup' hcc hce heq
      rw [this, hef] at hcf'
      simp at hcf'
    have hsibE : ∀ cc ∈ cs, cc.isEllipsis = false →
        (collapseTree cc 5).path ≠ (ellipsisNodeFor p
          ((cs.map (fun c => collapseTree c 5)).drop (5 - 1))).path := by
      intro cc hcc _ heq
      rw [hcp] at heq
      rw [hpath cc hcc] at heq
      have : cc.name = "_more" := by
        apply append_seg_slash_inj p cc.name "_more"
        rw [heq]
        rfl
      exact hnoRoot cc hcc this
    have hsub : ∀ ci ∈ cs, ∀ m ∈ allNodes (collapseTree ci 5),
        ∀ e ∈ m.children, e.isEllipsis = true →
        ∀ c ∈ m.children, c.isEllipsis = false → c.path ≠ e.path := by
      intro ci hci
      exact ih ci hci (hok ci hci)
        (noMoreNames_child (.mk n u p cs s e0 h0 pp b) ci (by simpa [Node.children] using hci) hNo)
    rw [collapseTree_mk]
    by_cases hz : cs.length = 0
    · have : cs = [] := List.length_eq_zero.mp hz
      subst this
      rw [if_pos hz]
      intro m hm
      rw [allNodes_mk] at hm
      simp at hm
      subst hm
      intro e he
      simp [Node.children] at he
    · by_cases hbig : 5 < cs.length
      · have hc5 : (cs.map (fun c => collapseTree c 5)).length > 5 := by simp; omega
        simp only [hz, if_false, hc5, if_true]
        intro m hm
        rw [allNodes_mk] at hm
        cases List.mem_cons.mp hm with
        | inl hm =>
          subst hm
          intro e he het c hc hcf' heq
          simp only [Node.children] at he hc
          cases List.mem_append.mp he with
          | inl heA =>
            obtain ⟨ce, hce, hceq⟩ := List.mem_map.mp (List.mem_of_mem_take heA)
            cases List.mem_append.mp hc with
            | inl hcA =>
              obtain ⟨cc, hcc, hcceq⟩ := List.mem_map.mp (List.mem_of_mem_take hcA)
              rw [← hceq] at het
              rw [← hcceq] at hcf'
              rw [hcf] at het hcf'
              exact hsib ce hce cc hcc het hcf'
                (by rw [hcceq, hceq]; exact heq) 
            | inr hcE =>
              rw [List.mem_singleton] at hcE
              subst hcE
              rw [ellipsisNodeFor] at hcf'
              simp [Node.isEllipsis] at hcf'
          | inr heE =>
            rw [List.mem_singleton] at heE
            subst heE
            cases List.mem_append.mp hc with
            | inl hcA =>
              obtain ⟨cc, hcc, hcceq⟩ := List.mem_map.mp (List.mem_of_mem_take hcA)
              rw [← hcceq] at hcf'
              rw [hcf] at hcf'
              exact hsibE cc hcc hcf' (by rw [hcceq]; exact heq)
            | inr hcE =>
              rw [List.mem_singleton] at hcE
              subst hcE
              rw [ellipsisNodeFor] at hcf'
              simp [Node.isEllipsis] at hcf'
        | inr hm =>
          rw [List.mem_flatMap] at hm
          obtain ⟨cx, hcx, hmx⟩ := hm
          cases List.mem_append.mp hcx with
          | inl hcxA =>
            obtain ⟨ci, hci, hcieq⟩ := List.mem_map.mp (List.mem_of_mem_take hcxA)
            rw [← hcieq] at hmx
            exact hsub ci hci m hmx
          | inr hcxE =>
            rw [List.mem_singleton] at hcxE
            subst hcxE
            rw [ellipsisNodeFor, allNodes_mk] at hmx
            simp at hmx
            subst hmx
            intro e he
            simp [Node.children] at he
      · have hc5 : ¬ (cs.map (fun c => collapseTree c 5)).length > 5 := by simp; omega
        simp only [hz, if_false, hc5]
        intro m hm
        rw [allNodes_mk] at hm
        cases List.mem_cons.mp hm with
        | inl hm =>
          subst hm
          intro e he het c hc hcf' heq
          simp only [Node.children] at he hc
          obtain ⟨ce, hce, hceq⟩ := List.mem_map.mp he
          obtain ⟨cc, hcc, hcceq⟩ := List.mem_map.mp hc
          rw [← hceq] at het
          rw [← hcceq] at hcf'
          rw [hcf] at het hcf'
          exact hsib ce hce cc hcc het hcf' (by rw [hcceq, hceq]; exact heq)
        | inr hm =>
          rw [List.mem_flatMap] at hm
          obtain ⟨cx, hcx, hmx⟩ := hm
          obtain ⟨ci, hci, hcieq⟩ := List.mem_map.mp hcx
          rw [← hcieq] at hmx
          exact hsub ci hci m hmx

theorem Ok_leafNode (nm : String) (u : Option String) (pth : String) (s : Option String)
    (hslash : endsSlashB pth = true) : Ok (Node.plain nm u pth [] s) := by
  rw [Node.plain]
  exact Ok.intro nm u pth [] s false [] "" 0 hslash rfl
    (by intro c hc; cases hc) (by intro c hc; cases hc) (by intro c hc; cases hc)

theorem Ok_t6 : Ok t6 := by
  rw [show t6 = Node.mk "ex.com" (some "https://ex.com") "/"
    [leaf "a", leaf "b", leaf "c", leaf "d", leaf "e", leaf "f"] none false [] "" 0 from rfl]
  apply Ok.intro
  · decide
  · decide
  · decide
  · decide
  · intro c hc
    fin_cases hc <;> exact Ok_leafNode _ _ _ _ (by decide)

theorem noMore_t6 : noMoreNames t6 := by
  rw [noMoreNames]
  have hall : allNodes t6 =
      [t6, leaf "a", leaf "b", leaf "c", leaf "d", leaf "e", leaf "f"] := by
    rw [show t6 = Node.mk "ex.com" (some "https://ex.com") "/"
      [leaf "a", leaf "b", leaf "c", leaf "d", leaf "e", leaf "f"] none false [] "" 0 from rfl]
    rw [allNodes_mk]
    simp [leaf, Node.plain, allNodes_mk]
  intro nd hnd
  rw [hall] at hnd
  fin_cases hnd <;> decide

/-- Witness for the amended C8 at `t6` (no child named `_more`): the
kept first child's path differs from the appended ellipsis path. -/
theorem ellipsis_path_fresh_witness :
    (leaf "a").path ≠ (ellipsisNodeFor "/" [leaf "e", leaf "f"]).path ∧
    leaf "a" ∈ (collapseTree t6 5).children ∧
    ellipsisNodeFor "/" [leaf "e", leaf "f"] ∈ (collapseTree t6 5).children := by
  have hev : (collapseTree t6 5).children =
      [leaf "a", leaf "b", leaf "c", leaf "d",
       ellipsisNodeFor "/" [leaf "e", leaf "f"]] := by
    rw [show t6 = Node.mk "ex.com" (some "https://ex.com") "/"
      [leaf "a", leaf "b", leaf "c", leaf "d", leaf "e", leaf "f"] none false [] "" 0 from rfl]
    rw [collapseTree_mk]
    norm_num [leaf, Node.plain, collapse_leaf, Node.children, ellipsisNodeFor]
  have hcA : leaf "a" ∈ (collapseTree t6 5).children := by
    rw [hev]
    simp
  have heE : ellipsisNodeFor "/" [leaf "e", leaf "f"] ∈ (collapseTree t6 5).children := by
    rw [hev]
    simp
  exact ⟨ellipsis_path_fresh t6 Ok_t6 noMore_t6 (collapseTree t6 5) (mem_allNodes_self _)
    (ellipsisNodeFor "/" [leaf "e", leaf "f"]) heE rfl (leaf "a") hcA rfl, hcA, heE⟩

/-! ## C1: the tree builder's path invariants -/

theorem withChildren_fields (t : Node) (cs : List Node) :
    (t.withChildren cs).name = t.name ∧ (t.withChildren cs).url = t.url ∧
    (t.withChildren cs).path = t.path ∧ (t.withChildren cs).children = cs := by
  cases t
  exact ⟨rfl, rfl, rfl, rfl⟩

theorem withUrl_fields (t : Node) (u : Option String) :
    (t.withUrl u).name = t.name ∧ (t.withUrl u).url = u ∧
    (t.withUrl u).path = t.path ∧ (t.withUrl u).children = t.children := by
  cases t
  exact ⟨rfl, rfl, rfl, rfl⟩

theorem insertPath_keeps (url : String) :
    ∀ (segs : List String) (node : Node),
      (insertPath url node segs).path = node.path ∧
      (insertPath url node segs).name = node.name := by
  intro segs
  induction segs with
  | nil =>
    intro node
    rw [insertPath]
    by_cases ht : truthy node.url = true
    · rw [if_pos ht]
      exact ⟨rfl, rfl⟩
    · rw [if_neg ht]
      cases node
      exact ⟨rfl, rfl⟩
  | cons seg rest ih =>
    intro node
    rw [insertPath]
    by_cases hf : (node.children.any (fun c => c.path == node.path ++ seg ++ "/")) = true
    · rw [if_pos hf]
      cases node
      exact ⟨rfl, rfl⟩
    · rw [if_neg hf]
      cases node
      exact ⟨rfl, rfl⟩

theorem Ok_withUrl (t : Node) (u : Option String) (h : Ok t) : Ok (t.withUrl u) := by
  cases h with
  | intro n u0 p cs s e hh pp b hslash hnodup hpath hseg hok =>
    exact Ok.intro n u p cs s e hh pp b hslash hnodup hpath hseg hok

theorem segOkB_mk (l : List Char) (hne : l ≠ []) (hns : '/' ∉ l) :
    segOkB (String.mk l) = true := by
  rw [segOkB, Bool.and_eq_true]
  constructor
  · rw [Bool.not_eq_true']
    rw [Bool.eq_false_iff]
    intro hemp
    rw [String.isEmpty_iff] at hemp
    apply hne
    have : (String.mk l).data = ("" : String).data := by rw [hemp]
    exact this
  · rw [Bool.not_eq_true']
    rw [Bool.eq_false_iff]
    intro hcontains
    apply hns
    have : l.contains '/' = true := hcontains
    simpa [List.contains] using this

theorem splitSegsAux_ok :
    ∀ (l acc : List Char), '/' ∉ acc → ∀ s ∈ splitSegsAux l acc, segOkB s = true := by
  intro l
  induction l with
  | nil =>
    intro acc hacc s hs
    rw [splitSegsAux] at hs
    by_cases hemp : acc.isEmpty = true
    · rw [if_pos hemp] at hs
      cases hs
    · rw [if_neg hemp] at hs
      rw [List.mem_singleton] at hs
      subst hs
      apply segOkB_mk
      · intro hrev
        rw [List.isEmpty_iff] at hemp
        exact hemp (List.reverse_eq_nil_iff.mp hrev)
      · intro hmem
        exact hacc (List.mem_reverse.mp hmem)
  | cons ch rest ih =>
    intro acc hacc s hs
    rw [splitSegsAux] at hs
    by_cases hsl : ch = '/'
    · rw [if_pos hsl] at hs
      by_cases hemp : acc.isEmpty = true
      · rw [if_pos hemp] at hs
        exact ih [] (by simp) s hs
      · rw [if_neg hemp] at hs
        cases List.mem_cons.mp hs with
        | inl h1 =>
          subst h1
          apply segOkB_mk
          · intro hrev
            rw [List.isEmpty_iff] at hemp
            exact hemp (List.reverse_eq_nil_iff.mp hrev)
          · intro hmem
            exact hacc (List.mem_reverse.mp hmem)
        | inr h2 => exact ih [] (by simp) s h2
    · rw [if_neg hsl] at hs
      refine ih (ch :: acc) ?_ s hs
      intro hmem
      cases List.mem_cons.mp hmem with
      | inl h1 => exact hsl h1.symm
      | inr h2 => exact hacc h2

theorem splitSegs_ok (s : String) : ∀ seg ∈ splitSegs s, segOkB seg = true := by
  rw [splitSegs]
  exact splitSegsAux_ok s.data [] (by simp)

theorem endsSlash_append (p seg : String) : endsSlashB (p ++ seg ++ "/") = true := by
  rw [endsSlashB]
  rw [show (p ++ seg ++ "/").data = (p.data ++ seg.data) ++ ['/'] by
    rw [String.data_append, String.data_append]]
  rw [List.getLast?_concat]
  rfl

theorem insertPath_ok (url : String) :
    ∀ (segs : List String) (node : Node), Ok node → (∀ s ∈ segs, segOkB s = true) →
      Ok (insertPath url node segs) := by
  intro segs
  induction segs with
  | nil =>
    intro node hOk _
    rw [insertPath]
    by_cases ht : truthy node.url = true
    · rw [if_pos ht]
      exact hOk
    · rw [if_neg ht]
      exact Ok_withUrl node _ hOk
  | cons seg rest ih =>
    intro node hOk hsegs
    have hsegRest : ∀ s ∈ rest, segOkB s = true := fun s hs => hsegs s (by simp [hs])
    have hsegHead : segOkB seg = true := hsegs seg (by simp)
    rw [insertPath]
    cases hOk with
    | intro n u0 p cs s e hh pp b hslash hnodup hpath hseg hok =>
      simp only [Node.children, Node.path]
      by_cases hf : (cs.any (fun c => c.path == (Node.mk n u0 p cs s e hh pp b).path ++ seg ++ "/")) = true
      · simp only [Node.path] at hf
        rw [if_pos hf]
        show Ok (Node.mk n u0 p (cs.map (fun c =>
          if (c.path == p ++ seg ++ "/") = true then insertPath url c rest else c)) s e hh pp b)
        have hkeep : ∀ c ∈ cs,
            ((fun c => if (c.path == p ++ seg ++ "/") = true then insertPath url c rest else c) c).path
              = c.path ∧
            ((fun c => if (c.path == p ++ seg ++ "/") = true then insertPath url c rest else c) c).name
              = c.name := by
          intro c _
          show (if (c.path == p ++ seg ++ "/") = true then insertPath url c rest else c).path
              = c.path ∧
            (if (c.path == p ++ seg ++ "/") = true then insertPath url c rest else c).name
              = c.name
          by_cases hcp : (c.path == p ++ seg ++ "/") = true
          · rw [if_pos hcp]
            exact ⟨(insertPath_keeps url rest c).1, (insertPath_keeps url rest c).2⟩
          · rw [if_neg hcp]
            exact ⟨rfl, rfl⟩
        apply Ok.intro
        · exact hslash
        · rw [show (cs.map (fun c =>
            if (c.path == p ++ seg ++ "/") = true then insertPath url c rest else c)).map Node.path
              = cs.map Node.path by
            rw [List.map_map]
            apply List.map_congr_left
            intro c hc
            exact (hkeep c hc).1]
          exact hnodup
        · intro c' hc'
          rw [List.mem_map] at hc'
          obtain ⟨c, hc, hceq⟩ := hc'
          rw [← hceq, (hkeep c hc).1, (hkeep c hc).2]
          exact hpath c hc
        · intro c' hc'
          rw [List.mem_map] at hc'
          obtain ⟨c, hc, hceq⟩ := hc'
          rw [← hceq, (hkeep c hc).2]
          exact hseg c hc
        · intro c' hc'
          rw [List.mem_map] at hc'
          obtain ⟨c, hc, hceq⟩ := hc'
          rw [← hceq]
          by_cases hcp : (c.path == p ++ seg ++ "/") = true
          · simp only [hcp, if_true]
            exact ih c (hok c hc) hsegRest
          · simp only [hcp, if_false]
            exact hok c hc
      · simp only [Node.path] at hf
        rw [if_neg hf]
        show Ok (Node.mk n u0 p (cs ++
          [insertPath url (Node.plain seg (if rest.isEmpty then some url else none)
            (p ++ seg ++ "/") [] none) rest]) s e hh pp b)
        have hnotin : ∀ c ∈ cs, c.path ≠ p ++ seg ++ "/" := by
          intro c hc hcp
          apply hf
          rw [List.any_eq_true]
          exact ⟨c, hc, by rw [beq_iff_eq]; exact hcp⟩
        have hfreshOk : Ok (insertPath url (Node.plain seg
            (if rest.isEmpty then some url else none) (p ++ seg ++ "/") [] none) rest) :=
          ih _ (Ok_leafNode _ _ _ _ (endsSlash_append p seg)) hsegRest
        have hfreshPath : (insertPath url (Node.plain seg
            (if rest.isEmpty then some url else none) (p ++ seg ++ "/") [] none) rest).path =
            p ++ seg ++ "/" :=
          (insertPath_keeps url rest _).1
        have hfreshName : (insertPath url (Node.plain seg
            (if rest.isEmpty then some url else none) (p ++ seg ++ "/") [] none) rest).name =
            seg :=
          (insertPath_keeps url rest _).2
        apply Ok.intro
        · exact hslash
        · rw [List.map_append]
          rw [(nodupStr_iff _)]
          rw [List.map_singleton, hfreshPath]
          apply nodup_push
          · exact (nodupStr_iff _).mp hnodup
          · rw [List.mem_map]
            rintro ⟨c, hc, hceq⟩
            exact hnotin c hc hceq
        · intro c' hc'
          rw [List.mem_append] at hc'
          cases hc' with
          | inl hc => exact hpath c' hc
          | inr hc =>
            rw [List.mem_singleton] at hc
            subst hc
            rw [hfreshPath, hfreshName]
        · intro c' hc'
          rw [List.mem_append] at hc'
          cases hc' with
          | inl hc => exact hseg c' hc
          | inr hc =>
            rw [List.mem_singleton] at hc
            subst hc
            rw [hfreshName]
            exact hsegHead
        · intro c' hc'
          rw [List.mem_append] at hc'
          cases hc' with
          | inl hc => exact hok c' hc
          | inr hc =>
            rw [List.mem_singleton] at hc
            subst hc
            exact hfreshOk

theorem buildUrlTree_ok_aux (l : List UrlDepth) :
    ∀ t : Node, Ok t →
      Ok (l.foldl (fun t x => insertPath x.url t (splitSegs x.path)) t) := by
  induction l with
  | nil =>
    intro t h
    exact h
  | cons x xs ih =>
    intro t h
    rw [List.foldl_cons]
    exact ih _ (insertPath_ok x.url (splitSegs x.path) t h (splitSegs_ok x.path))

theorem buildUrlTree_ok (urls : List String) (parse : String → Option String)
    (hostname baseUrl : String) : Ok (buildUrlTree urls parse hostname baseUrl) := by
  rw [buildUrlTree]
  exact buildUrlTree_ok_aux _ _ (Ok_leafNode hostname (some baseUrl) "/" none (by decide))

theorem ok_linked : ∀ t : Node, Ok t → linkedB t = true := by
  apply Node.ind
  intro n u p cs s e h pp b ih _ hOk
  cases hOk with
  | intro _ _ _ _ _ _ _ _ _ hslash hnodup hpath hseg hok =>
    rw [linkedB_mk, List.all_eq_true]
    intro c hc
    rw [Bool.and_eq_true]
    constructor
    · rw [beq_iff_eq]
      exact hpath c hc
    · exact ih c hc (hok c hc)

theorem segOkB_spec (s : String) (h : segOkB s = true) : s.data ≠ [] ∧ '/' ∉ s.data := by
  rw [segOkB, Bool.and_eq_true] at h
  obtain ⟨h1, h2⟩ := h
  constructor
  · intro hnil
    rw [Bool.not_eq_true', Bool.eq_false_iff] at h1
    apply h1
    rw [String.isEmpty_iff]
    exact String.ext hnil
  · intro hmem
    rw [Bool.not_eq_true', Bool.eq_false_iff] at h2
    apply h2
    simpa [List.contains] using hmem

theorem ok_subtree_head (t : Node) (hOk : Ok t) :
    ∀ x ∈ allNodes t, ∃ r, x.path.data = t.path.data ++ r := by
  induction t using Node.ind with
  | step n u p cs s e h pp b ih _ =>
    intro x hx
    rw [allNodes_mk] at hx
    cases List.mem_cons.mp hx with
    | inl h1 =>
      subst h1
      exact ⟨[], by simp⟩
    | inr h2 =>
      rw [List.mem_flatMap] at h2
      obtain ⟨c, hc, hxc⟩ := h2
      cases hOk with
      | intro _ _ _ _ _ _ _ _ _ hslash hnodup hpath hseg hok =>
        obtain ⟨r, hr⟩ := ih c hc (hok c hc) x hxc
        refine ⟨c.name.data ++ '/' :: r, ?_⟩
        rw [hr, hpath c hc]
        rw [String.data_append, String.data_append]
        simp [Node.path]

theorem charSeg :
    ∀ (a : List Char), '/' ∉ a → ∀ (b : List Char), '/' ∉ b → ∀ r1 r2 : List Char,
      a ++ '/' :: r1 = b ++ '/' :: r2 → a = b ∧ r1 = r2 := by
  intro a
  induction a with
  | nil =>
    intro _ b hb r1 r2 hEq
    cases b with
    | nil =>
      simp at hEq
      exact ⟨rfl, hEq⟩
    | cons x xs =>
      simp at hEq
      exfalso
      apply hb
      rw [← hEq.1]
      simp
  | cons x xs ih =>
    intro ha b hb r1 r2 hEq
    cases b with
    | nil =>
      simp at hEq
      exfalso
      apply ha
      rw [hEq.1]
      simp
    | cons y ys =>
      simp only [List.cons_append, List.cons.injEq] at hEq
      obtain ⟨hxy, hrest⟩ := hEq
      have hxs : '/' ∉ xs := fun hm => ha (List.mem_cons_of_mem _ hm)
      have hys : '/' ∉ ys := fun hm => hb (List.mem_cons_of_mem _ hm)
      obtain ⟨h1, h2⟩ := ih hxs ys hys r1 r2 hrest
      exact ⟨by rw [hxy, h1], h2⟩

theorem nodup_flatMap_disjoint {α β : Type} (l : List α) (f : α → List β)
    (h1 : ∀ x ∈ l, (f x).Nodup)
    (h2 : l.Pairwise (fun a b => ∀ q ∈ f a, q ∉ f b)) : (l.flatMap f).Nodup := by
  induction l with
  | nil => simp
  | cons x xs ih =>
    rw [List.flatMap_cons]
    rw [List.pairwise_cons] at h2
    rw [List.nodup_append]
    refine ⟨h1 x (by simp), ih (fun y hy => h1 y (by simp [hy])) h2.2, ?_⟩
    intro q hq
    rw [List.mem_flatMap]
    rintro ⟨y, hy, hqy⟩
    exact h2.1 y hy q hq hqy

theorem ok_allPaths_nodup (t : Node) (hOk : Ok t) :
    ((allNodes t).map Node.path).Nodup := by
  induction t using Node.ind with
  | step n u p cs s e h pp b ih _ =>
    cases hOk with
    | intro _ _ _ _ _ _ _ _ _ hslash hnodup hpath hseg hok =>
      rw [allNodes_mk, List.map_cons, List.nodup_cons]
      constructor
      · rw [List.mem_map]
        rintro ⟨x, hx, hxp⟩
        rw [List.mem_flatMap] at hx
        obtain ⟨c, hc, hxc⟩ := hx
        obtain ⟨r, hr⟩ := ok_subtree_head c (hok c hc) x hxc
        have hd : (Node.path x).data = p.data ++ (c.name.data ++ '/' :: r) := by
          rw [hr, hpath c hc, String.data_append, String.data_append]
          simp
        have hlen := congrArg List.length hd
        rw [hxp] at hlen
        simp only [List.length_append, List.length_cons] at hlen
        have hname := (segOkB_spec c.name (hseg c hc)).1
        have : c.name.data.length ≠ 0 := fun h0 => hname (List.length_eq_zero.mp h0)
        simp only [Node.path] at hlen
        omega
      · rw [List.map_flatMap]
        apply nodup_flatMap_disjoint
        · intro c hc
          exact ih c hc (hok c hc)
        · have hnd : (cs.map Node.path).Nodup := (nodupStr_iff _).mp hnodup
          have hpw : cs.Pairwise (fun a b => Node.path a ≠ Node.path b) :=
            List.pairwise_map.mp hnd
          apply List.Pairwise.imp_of_mem ?_ hpw
          intro a b ha hb hab q hqa hqb
          rw [List.mem_map] at hqa hqb
          obtain ⟨x, hx, hxq⟩ := hqa
          obtain ⟨y, hy, hyq⟩ := hqb
          obtain ⟨r1, hr1⟩ := ok_subtree_head a (hok a ha) x hx
          obtain ⟨r2, hr2⟩ := ok_subtree_head b (hok b hb) y hy
          have hdata : (Node.path x).data = (Node.path y).data := by rw [hxq, hyq]
          rw [hr1, hr2] at hdata
          have hda : (Node.path a).data = p.data ++ (a.name.data ++ ['/']) := by
            rw [hpath a ha, String.data_append, String.data_append]
            simp
          have hdb : (Node.path b).data = p.data ++ (b.name.data ++ ['/']) := by
            rw [hpath b hb, String.data_append, String.data_append]
            simp
          rw [hda, hdb] at hdata
          simp only [List.append_assoc, List.singleton_append] at hdata
          have hcore := List.append_cancel_left hdata
          have hseg' := charSeg a.name.data (segOkB_spec a.name (hseg a ha)).2
            b.name.data (segOkB_spec b.name (hseg b hb)).2 r1 r2 hcore
          apply hab
          rw [hpath a ha, hpath b hb, String.ext hseg'.1]

/-- C1: for every URL list and parse function (i.e. any parseable base
URL and any mix of parseable/unparseable URLs), the built tree has
pairwise distinct node paths — exactly one node per distinct path — and
every non-root node's path is its parent's path concatenated with its
own name segment and `/` (`linkedB`). -/
theorem builder_one_node_per_path (urls : List String) (parse : String → Option String)
    (hostname baseUrl : String) :
    ((allNodes (buildUrlTree urls parse hostname baseUrl)).map Node.path).Nodup ∧
    linkedB (buildUrlTree urls parse hostname baseUrl) = true :=
  ⟨ok_allPaths_nodup _ (buildUrlTree_ok urls parse hostname baseUrl),
   ok_linked _ (buildUrlTree_ok urls parse hostname baseUrl)⟩

/-! ## C4: collapse followed by full expansion restores the tree -/

theorem withChildren_withChildren (m : Node) (x y : List Node) :
    (m.withChildren x).withChildren y = m.withChildren y := by
  cases m
  rfl

theorem attachNodeReport_none : ∀ x : Node, attachNodeReport (fun _ => none) x = x := by
  apply Node.ind
  intro n u p cs s e h pp b ih _
  rw [attachNodeReport_mk]
  have : cs.map (fun c => attachNodeReport (fun _ => none) c) = cs.map id := by
    apply List.map_congr_left
    intro c hc
    exact ih c hc
  rw [this, List.map_id]
  cases u with
  | none => rfl
  | some url =>
    by_cases hu : url = ""
    · simp [hu]
    · simp [hu]

theorem plainTreeB_spec (n u p cs s e h pp b)
    (hp : plainTreeB (.mk n u p cs s e h pp b) = true) :
    e = false ∧ h = [] ∧ ∀ c ∈ cs, plainTreeB c = true := by
  rw [plainTreeB_mk, Bool.and_eq_true, Bool.and_eq_true] at hp
  obtain ⟨⟨h1, h2⟩, h3⟩ := hp
  refine ⟨by simpa using h1, by simpa [List.isEmpty_iff] using h2, ?_⟩
  rw [List.all_eq_true] at h3
  exact h3

theorem plain_isEllipsis (c : Node) (hp : plainTreeB c = true) : c.isEllipsis = false := by
  cases c with
  | mk n u p cs s e h pp b =>
    have := (plainTreeB_spec n u p cs s e h pp b hp).1
    simpa [Node.isEllipsis] using this

theorem splitAtEllipsis_append (E : Node) (hE : E.isEllipsis = true) :
    ∀ as : List Node, (∀ x ∈ as, x.isEllipsis = false) →
      splitAtEllipsis (as ++ [E]) = some (as, E, []) := by
  intro as
  induction as with
  | nil =>
    intro _
    rw [List.nil_append, splitAtEllipsis]
    rw [if_pos hE]
  | cons a rest ih =>
    intro hno
    rw [List.cons_append, splitAtEllipsis]
    rw [if_neg (by rw [hno a (by simp)]; exact Bool.false_ne_true)]
    rw [ih (fun x hx => hno x (by simp [hx]))]

theorem node_sizeOf_pos (t : Node) : 1 ≤ sizeOf t := by
  cases t
  simp
  omega

theorem list_length_lt_sizeOf (l : List Node) : l.length < sizeOf l := by
  induction l with
  | nil => simp
  | cons c cs ih =>
    have := node_sizeOf_pos c
    simp at ih ⊢
    omega

theorem expandOwnerOnce_spec (m : Node) (as hs : List Node) (pp' : String)
    (hch : m.children = as ++ [ellipsisNodeFor pp' hs])
    (has : ∀ x ∈ as, x.isEllipsis = false)
    (hhs : ∀ x ∈ hs, collapseTree x 5 = x)
    (hne : hs ≠ []) :
    expandOwnerOnce m = m.withChildren (as ++ hs.take 5 ++
      (if (hs.drop 5).length = 0 then [] else [ellipsisNodeFor pp' (hs.drop 5)])) := by
  rw [expandOwnerOnce, hch]
  rw [splitAtEllipsis_append (ellipsisNodeFor pp' hs) rfl as has]
  simp only [ellipsisNodeFor, Node.hiddenChildren, Node.expandBatchSize, Node.parentPath,
    batchSizeOf]
  rw [if_neg (fun h0 => hne (List.length_eq_zero.mp h0))]
  have hadd : (attachScreenshotsToNodes (hs.take (if 5 = 0 then 5 else 5)) (fun _ => none)).map
      (fun nd => collapseTree nd 5) = hs.take 5 := by
    rw [attachScreenshotsToNodes]
    norm_num
    rw [← List.map_take]
    have : ∀ x ∈ hs.take 5, ((fun nd => collapseTree nd 5) ∘
        attachNodeReport (fun _ => none)) x = id x := by
      intro x hx
      show collapseTree (attachNodeReport (fun _ => none) x) 5 = x
      rw [attachNodeReport_none x]
      exact hhs x (List.mem_of_mem_take hx)
    rw [List.map_congr_left this, List.map_id]
  rw [hadd]
  norm_num

theorem revealAll_noEllipsis (m : Node) (hno : hasEllipsisChild m = false) :
    ∀ fuel, revealAll fuel m = m := by
  intro fuel
  cases fuel with
  | zero => rw [revealAll]
  | succ f =>
    rw [revealAll, hno]
    simp

theorem hasEllipsisChild_withChildren (m : Node) (cs : List Node) :
    hasEllipsisChild (m.withChildren cs) = cs.any (fun c => c.isEllipsis) := by
  cases m
  rfl

theorem revealAll_spec :
    ∀ (fuel : Nat) (hs as : List Node) (m : Node) (pp' : String),
      m.children = as ++ [ellipsisNodeFor pp' hs] →
      (∀ x ∈ as, x.isEllipsis = false) →
      (∀ x ∈ hs, collapseTree x 5 = x ∧ x.isEllipsis = false) →
      hs ≠ [] → hs.length + 1 ≤ fuel →
      revealAll fuel m = m.withChildren (as ++ hs) := by
  intro fuel
  induction fuel with
  | zero =>
    intro hs as m pp' _ _ _ _ hle
    omega
  | succ f ih =>
    intro hs as m pp' hch has hhs hne hle
    have hEll : hasEllipsisChild m = true := by
      rw [hasEllipsisChild, hch, List.any_eq_true]
      exact ⟨ellipsisNodeFor pp' hs, by simp, rfl⟩
    rw [revealAll, hEll]
    simp only [if_true]
    rw [expandOwnerOnce_spec m as hs pp' hch has (fun x hx => (hhs x hx).1) hne]
    by_cases hsmall : (hs.drop 5).length = 0
    · rw [if_pos hsmall]
      have htake : hs.take 5 = hs := by
        rw [List.take_of_length_le]
        rw [List.length_drop] at hsmall
        omega
      rw [htake, List.append_nil]
      apply revealAll_noEllipsis
      rw [hasEllipsisChild_withChildren]
      rw [Bool.eq_false_iff]
      intro hany
      rw [List.any_eq_true] at hany
      obtain ⟨c, hc, hce⟩ := hany
      rw [List.mem_append] at hc
      cases hc with
      | inl hc =>
        rw [has c hc] at hce
        simp at hce
      | inr hc =>
        rw [(hhs c hc).2] at hce
        simp at hce
    · rw [if_neg hsmall]
      have hres := ih (hs.drop 5) (as ++ hs.take 5)
        (m.withChildren (as ++ hs.take 5 ++ [ellipsisNodeFor pp' (hs.drop 5)])) pp'
        (by
          rw [(withChildren_fields m _).2.2.2]
          try rw [List.append_assoc])
        (by
          intro x hx
          rw [List.mem_append] at hx
          cases hx with
          | inl hx => exact has x hx
          | inr hx => exact (hhs x (List.mem_of_mem_take hx)).2)
        (fun x hx => hhs x (List.mem_of_mem_drop hx))
        (by
          intro hnil
          rw [hnil] at hsmall
          exact hsmall rfl)
        (by
          rw [List.length_drop]
          rw [List.length_drop] at hsmall
          omega)
      rw [hres, withChildren_withChildren]
      rw [List.append_assoc, List.take_append_drop]

theorem expandFully_collapse :
    ∀ t : Node, plainTreeB t = true → ∀ fuel, sizeOf t ≤ fuel →
      expandFully fuel (collapseTree t 5) = t := by
  apply Node.ind
  intro n u p cs s e h pp b ih _ hp fuel hfuel
  obtain ⟨he, hh, hkids⟩ := plainTreeB_spec n u p cs s e h pp b hp
  subst he
  subst hh
  cases fuel with
  | zero =>
    have := node_sizeOf_pos (Node.mk n u p cs s false [] pp b)
    omega
  | succ f =>
    have hchildsz : ∀ c ∈ cs, sizeOf c ≤ f := by
      intro c hc
      have h1 := List.sizeOf_lt_of_mem hc
      simp at hfuel
      omega
    have hkidmap : ∀ c ∈ cs, expandFully f (collapseTree c 5) = c := by
      intro c hc
      exact ih c hc (hkids c hc) f (hchildsz c hc)
    have hEllmap : ∀ x ∈ cs.map (fun c => collapseTree c 5), x.isEllipsis = false := by
      intro x hx
      rw [List.mem_map] at hx
      obtain ⟨c, hc, hceq⟩ := hx
      rw [← hceq, (collapseTree_fields c 5).2.2.2.2.1]
      exact plain_isEllipsis c (hkids c hc)
    rw [expandFully, collapseTree_mk]
    by_cases h0 : cs.length = 0
    · rw [if_pos h0]
      have hcs : cs = [] := List.length_eq_zero.mp h0
      subst hcs
      rw [revealAll_noEllipsis _ (by rw [hasEllipsisChild]; simp [Node.children])]
      rfl
    · by_cases hbig : (cs.map (fun c => collapseTree c 5)).length > 5
      · rw [if_neg h0, if_pos hbig]
        have hA : ∀ x ∈ (cs.map (fun c => collapseTree c 5)).take (5 - 1),
            x.isEllipsis = false :=
          fun x hx => hEllmap x (List.mem_of_mem_take hx)
        have hH : ∀ x ∈ (cs.map (fun c => collapseTree c 5)).drop (5 - 1),
            collapseTree x 5 = x ∧ x.isEllipsis = false := by
          intro x hx
          have hx' := List.mem_of_mem_drop hx
          rw [List.mem_map] at hx'
          obtain ⟨c, _, hceq⟩ := hx'
          refine ⟨?_, hEllmap x (List.mem_of_mem_drop hx)⟩
          rw [← hceq]
          exact collapse_collapse c
        have hHne : (cs.map (fun c => collapseTree c 5)).drop (5 - 1) ≠ [] := by
          intro hnil
          have hlen := congrArg List.length hnil
          simp only [List.length_drop, List.length_map, List.length_nil] at hlen
          have hbig' := hbig
          simp only [List.length_map] at hbig'
          omega
        have hHlen : ((cs.map (fun c => collapseTree c 5)).drop (5 - 1)).length + 1 ≤ f + 1 := by
          have h2 := list_length_lt_sizeOf cs
          simp only [Node.mk.sizeOf_spec] at hfuel
          simp only [List.length_drop, List.length_map]
          omega
        rw [revealAll_spec (f + 1) _ _ _ p (by simp [Node.children]) hA hH hHne hHlen]
        rw [(withChildren_fields _ _).2.2.2]
        rw [List.take_append_drop]
        have hmapback : (cs.map (fun c => collapseTree c 5)).map (expandFully f) = cs := by
          rw [List.map_map]
          rw [show ((expandFully f) ∘ (fun c => collapseTree c 5)) =
            (fun c => expandFully f (collapseTree c 5)) from rfl]
          rw [List.map_congr_left hkidmap]
          simp
        rw [hmapback, withChildren_withChildren]
        rfl
      · rw [if_neg h0, if_neg hbig]
        rw [revealAll_noEllipsis _ (by
          rw [hasEllipsisChild]
          rw [Bool.eq_false_iff]
          intro hany
          simp only [Node.children, List.any_eq_true] at hany
          obtain ⟨x, hx, hxe⟩ := hany
          rw [hEllmap x hx] at hxe
          simp at hxe)]
        show (Node.mk n u p (cs.map (fun c => collapseTree c 5)) s false [] pp b).withChildren
          ((cs.map (fun c => collapseTree c 5)).map (expandFully f)) = _
        have hmapback : (cs.map (fun c => collapseTree c 5)).map (expandFully f) = cs := by
          rw [List.map_map]
          rw [show ((expandFully f) ∘ (fun c => collapseTree c 5)) =
            (fun c => expandFully f (collapseTree c 5)) from rfl]
          rw [List.map_congr_left hkidmap]
          simp
        rw [hmapback]
        rfl

/-- C4: collapsing a (plain, ellipsis-free, as produced by the Tree
Builder) tree and then repeatedly expanding every ellipsis node until
none remains — each expansion as in `performExpand`: drop the ellipsis
from its owner, reveal up to `expandBatchSize` hidden children
(collapsed, with no new screenshots), re-append an ellipsis carrying the
remainder — reconstructs the pre-collapse tree exactly, hence with the
same set of node paths and the same url at each path, and with no
ellipsis node left. -/
theorem collapse_expand_round_trip (t : Node) (hp : plainTreeB t = true) :
    ∃ fuel, expandFully fuel (collapseTree t 5) = t ∧
      (allNodes (expandFully fuel (collapseTree t 5))).map (fun x => (x.path, x.url)) =
        (allNodes t).map (fun x => (x.path, x.url)) ∧
      plainTreeB (expandFully fuel (collapseTree t 5)) = true := by
  have h := expandFully_collapse t hp (sizeOf t) le_rfl
  exact ⟨sizeOf t, h, by rw [h], by rw [h]; exact hp⟩

/-- Witness for C4 at the six-child tree `t6`. -/
theorem collapse_expand_round_trip_witness :
    plainTreeB t6 = true ∧
    ∃ fuel, expandFully fuel (collapseTree t6 5) = t6 ∧
      (allNodes (expandFully fuel (collapseTree t6 5))).map (fun x => (x.path, x.url)) =
        (allNodes t6).map (fun x => (x.path, x.url)) ∧
      plainTreeB (expandFully fuel (collapseTree t6 5)) = true :=
  ⟨by simp [t6, leaf, Node.plain, plainTreeB_mk],
   collapse_expand_round_trip t6 (by simp [t6, leaf, Node.plain, plainTreeB_mk])⟩
